import Mathlib

/- Verification of the MySQL-to-PostgreSQL migration tool (src/MigrationScript.py).

   Shallow embedding: the pure computational content of each Python function is
   translated to Lean definitions.  Python strings are modelled as `List Char`
   (the ASCII fragment; all identifiers and type tokens handled by the tool are
   ASCII).  Database interaction is modelled by explicit state: a per-row
   acceptance predicate for the target database, an explicit sequence store for
   the sequence reconciler, and per-table row counts / orphan counts for the
   validators. -/

namespace Migration

/-! ### ASCII string helpers (models of the Python `str` primitives used) -/

/-- The lowercase table for ASCII letters, used to model Python `str.lower`. -/
def lowerTable : List (Char × Char) :=
  [('A','a'),('B','b'),('C','c'),('D','d'),('E','e'),('F','f'),('G','g'),
   ('H','h'),('I','i'),('J','j'),('K','k'),('L','l'),('M','m'),('N','n'),
   ('O','o'),('P','p'),('Q','q'),('R','r'),('S','s'),('T','t'),('U','u'),
   ('V','v'),('W','w'),('X','x'),('Y','y'),('Z','z')]

/-- ASCII model of Python `str.lower` on one character. -/
def asciiLower (c : Char) : Char := ((lowerTable.lookup c).getD c)

/-- ASCII model of Python `str.lower`. -/
def pyLower (l : List Char) : List Char := l.map asciiLower

/-- Model of Python `str.startswith` / prefix test: `startsWithL hay needle`. -/
def startsWithL : List Char → List Char → Bool
  | _, [] => true
  | [], _ :: _ => false
  | c :: cs, p :: ps => c == p && startsWithL cs ps

/-- Model of the Python substring test `needle in hay`. -/
def containsSub (hay needle : List Char) : Bool :=
  match hay with
  | [] => startsWithL [] needle
  | _ :: t => startsWithL hay needle || containsSub t needle

/-- A generic fact about association-list lookup, used to reason about the
    concrete lookup tables in this file. -/
theorem lookup_mem_snd {α β : Type} [BEq α] (l : List (α × β)) (a : α) (b : β)
    (h : l.lookup a = some b) : b ∈ l.map Prod.snd := by
  induction l with
  | nil => simp [List.lookup] at h
  | cons hd tl ih =>
    obtain ⟨k, v⟩ := hd
    simp only [List.lookup] at h
    by_cases hab : (a == k) = true
    · rw [hab] at h
      simp only [Option.some.injEq] at h
      simp [h]
    · rw [Bool.not_eq_true] at hab
      rw [hab] at h
      simp only [List.map_cons, List.mem_cons]
      exact Or.inr (ih h)

/-- `asciiLower` is idempotent: lowering an already-lowered character is the
    identity.  (Underlies the invariant that every emitted identifier is a
    fixed point of lowering.) -/
theorem asciiLower_idem (c : Char) : asciiLower (asciiLower c) = asciiLower c := by
  unfold asciiLower
  cases h : lowerTable.lookup c with
  | none => simp [h]
  | some v =>
    have hv : v ∈ lowerTable.map Prod.snd := lookup_mem_snd _ _ _ h
    have : ∀ w ∈ lowerTable.map Prod.snd, lowerTable.lookup w = none := by decide
    simp [this v hv]

/-! ### `sanitize_row` (MigrationScript.py lines 157-185)

Python values occurring in a row are modelled by `PyValue`: `none` is Python
`None`, `str` a text value, `bytes` a binary payload, and `obj` stands for any
other value (numbers, decoded dates, ...), which the function's default branch
passes through untouched. -/

inductive PyValue where
  | none
  | str (s : List Char)
  | bytes (b : List Nat)
  | obj (id : Nat)
  deriving DecidableEq, Repr

/-- Model of the regex test `re.match(r'^\d{4}-\d{2}-\d{2}', value)`:
    the first ten characters have the shape `dddd-dd-dd`. -/
def dateShape : List Char → Bool
  | y1 :: y2 :: y3 :: y4 :: h1 :: m1 :: m2 :: h2 :: d1 :: d2 :: _ =>
      y1.isDigit && y2.isDigit && y3.isDigit && y4.isDigit &&
      h1 == '-' && m1.isDigit && m2.isDigit && h2 == '-' && d1.isDigit && d2.isDigit
  | _ => false

def digitVal (c : Char) : Nat := c.toNat - 48

/-- Gregorian leap-year rule, as implemented by Python's `datetime`. -/
def isLeap (y : Nat) : Bool := (y % 4 == 0 && y % 100 != 0) || y % 400 == 0

def daysInMonth (y m : Nat) : Nat :=
  if m == 2 then (if isLeap y then 29 else 28)
  else if m == 4 || m == 6 || m == 9 || m == 11 then 30 else 31

/-- Model of `datetime.strptime(s, "%Y-%m-%d")` succeeding: in CPython the
    format requires exactly `dddd-dd-dd` and a calendar-valid date with
    year at least 1 (year 0000 raises ValueError). -/
def strptimeValidYMD (l : List Char) : Bool :=
  match l with
  | [y1, y2, y3, y4, h1, m1, m2, h2, d1, d2] =>
      y1.isDigit && y2.isDigit && y3.isDigit && y4.isDigit &&
      h1 == '-' && m1.isDigit && m2.isDigit && h2 == '-' && d1.isDigit && d2.isDigit &&
      (let y := ((digitVal y1 * 10 + digitVal y2) * 10 + digitVal y3) * 10 + digitVal y4
       let m := digitVal m1 * 10 + digitVal m2
       let d := digitVal d1 * 10 + digitVal d2
       1 ≤ y && 1 ≤ m && m ≤ 12 && 1 ≤ d && d ≤ daysInMonth y m)
  | _ => false

/-- The all-zero sentinel date tested by `value.startswith("0000-00-00")`. -/
def zeroSentinel : List Char := ("0000-00-00").data

/-- Embedding of the per-value body of `sanitize_row` (lines 163-184).
    Branch order as in the source: `None` check, string with date-prefix
    regex (invalid / sentinel dates become `None`), binary passthrough,
    default passthrough. -/
def sanitize_value (v : PyValue) : PyValue :=
  match v with
  | PyValue.none => PyValue.none
  | PyValue.str s =>
      if dateShape s then
        if startsWithL s zeroSentinel then PyValue.none
        else if strptimeValidYMD (s.take 10) then PyValue.str s
        else PyValue.none
      else PyValue.str s
  | PyValue.bytes b => PyValue.bytes b
  | PyValue.obj i => PyValue.obj i

/-- Embedding of `sanitize_row`: the sanitization applied to every value of the
    row dictionary (Python dicts preserve insertion order). -/
def sanitize_row (row : List (List Char × PyValue)) : List (List Char × PyValue) :=
  row.map (fun kv => (kv.1, sanitize_value kv.2))

/-- C4: a null value passes through as null; a string with a year-month-day
    date prefix becomes null when it starts with the all-zero sentinel
    (with or without any suffix) or when its first ten characters fail strict
    date parsing, and passes through unchanged when the date is valid;
    binary values pass through unchanged. -/
theorem claim_C4 :
    (sanitize_value PyValue.none = PyValue.none) ∧
    (∀ b, sanitize_value (PyValue.bytes b) = PyValue.bytes b) ∧
    (∀ s, dateShape s = true →
        sanitize_value (PyValue.str s) =
          (if startsWithL s zeroSentinel || !strptimeValidYMD (s.take 10)
           then PyValue.none else PyValue.str s)) := by
  refine ⟨rfl, fun b => rfl, fun s hs => ?_⟩
  simp only [sanitize_value, hs, if_true]
  by_cases h0 : startsWithL s zeroSentinel
  · simp [h0]
  · by_cases hv : strptimeValidYMD (s.take 10) <;> simp [h0, hv]

/-- C4 witness: the boundary values of the claim, via `claim_C4`:
    `"0000-00-00"` and `"0000-00-00 10:00:00"` sanitize to null,
    `"2024-01-15"` passes unchanged, `"2024-13-99"` sanitizes to null. -/
theorem claim_C4_witness :
    sanitize_value (PyValue.str ("0000-00-00").data) = PyValue.none ∧
    sanitize_value (PyValue.str ("0000-00-00 10:00:00").data) = PyValue.none ∧
    sanitize_value (PyValue.str ("2024-01-15").data) = PyValue.str ("2024-01-15").data ∧
    sanitize_value (PyValue.str ("2024-13-99").data) = PyValue.none := by
  refine ⟨?_, ?_, ?_, ?_⟩
  · rw [claim_C4.2.2 _ (by decide)]; decide
  · rw [claim_C4.2.2 _ (by decide)]; decide
  · rw [claim_C4.2.2 _ (by decide)]; decide
  · rw [claim_C4.2.2 _ (by decide)]; decide

/-! ### TYPE_MAPPING and column type translation (lines 40-70 and 226-239) -/

/-- The MySQL-to-PostgreSQL type catalog `TYPE_MAPPING` (lines 40-70). -/
def TYPE_MAPPING : List (List Char × List Char) :=
  [(("int").data, ("INTEGER").data),
   (("bigint").data, ("BIGINT").data),
   (("smallint").data, ("SMALLINT").data),
   (("tinyint").data, ("SMALLINT").data),
   (("mediumint").data, ("INTEGER").data),
   (("varchar").data, ("VARCHAR").data),
   (("char").data, ("CHAR").data),
   (("text").data, ("TEXT").data),
   (("longtext").data, ("TEXT").data),
   (("mediumtext").data, ("TEXT").data),
   (("tinytext").data, ("TEXT").data),
   (("datetime").data, ("TIMESTAMP").data),
   (("timestamp").data, ("TIMESTAMP").data),
   (("date").data, ("DATE").data),
   (("time").data, ("TIME").data),
   (("decimal").data, ("NUMERIC").data),
   (("float").data, ("REAL").data),
   (("double").data, ("DOUBLE PRECISION").data),
   (("bit").data, ("BOOLEAN").data),
   (("enum").data, ("TEXT").data),
   (("set").data, ("TEXT").data),
   (("json").data, ("JSONB").data),
   (("blob").data, ("BYTEA").data),
   (("longblob").data, ("BYTEA").data),
   (("mediumblob").data, ("BYTEA").data),
   (("tinyblob").data, ("BYTEA").data),
   (("binary").data, ("BYTEA").data),
   (("varbinary").data, ("BYTEA").data),
   (("year").data, ("INTEGER").data)]

/-- The catalog lookup `TYPE_MAPPING.get(base_type, 'TEXT')` (line 230). -/
def lookupType (base : List Char) : List Char :=
  (TYPE_MAPPING.lookup base).getD (("TEXT").data)

/-- ASCII model of the Python regex class `\w`: letter, digit or underscore. -/
def isWordChar (c : Char) : Bool := c.isAlpha || c.isDigit || c == '_'

/-- Embedding of `re.match(r'(\w+)', col_type.lower()).group(1)` (line 227):
    the leading run of word characters; `none` models the `AttributeError`
    Python raises when the regex does not match (type string empty or starting
    with a non-word character). -/
def extract_base_type (ctLower : List Char) : Option (List Char) :=
  match ctLower.takeWhile isWordChar with
  | [] => none
  | r => some r

/-- The suffix after the first occurrence of `c0`, if any. -/
def afterFirst (c0 : Char) : List Char → Option (List Char)
  | [] => none
  | c :: t => if c = c0 then some t else afterFirst c0 t

/-- Embedding of `re.search(r'\((.*?)\)', col_type).group(1)` (line 234): the
    characters strictly between the first `(` and the first `)` after it;
    `none` models the `AttributeError` when no such pair exists. -/
def extract_size (ct : List Char) : Option (List Char) :=
  match afterFirst '(' ct with
  | none => none
  | some rest =>
      if rest.any (fun c => c = ')') then some (rest.takeWhile (fun c => c ≠ ')'))
      else none

/-- The base types whose parenthesized size is carried over (line 233). -/
def sizedFamilies : List (List Char) :=
  [("varchar").data, ("char").data, ("decimal").data, ("numeric").data]

/-- Embedding of lines 227-235: base type extraction, catalog lookup with TEXT
    default, and the size suffix for character and decimal/numeric families.
    `none` models an unhandled Python exception. -/
def pg_sized_type (colType : List Char) : Option (List Char) :=
  match extract_base_type (pyLower colType) with
  | none => none
  | some base =>
      let pg := lookupType base
      if colType.contains '(' && sizedFamilies.contains base then
        match extract_size colType with
        | none => none
        | some sz => some (pg ++ ('(' :: (sz ++ [')'])))
      else some pg

/-- Embedding of the auto-increment remap (lines 238-239). -/
def hasAutoInc (extra : List Char) : Bool := containsSub extra ("auto_increment").data

def apply_serial (pg : List Char) (extra : List Char) : List Char :=
  if hasAutoInc extra then
    if pg == ("INTEGER").data then ("SERIAL").data
    else if pg == ("BIGINT").data then ("BIGSERIAL").data
    else pg
  else pg

/-- Modelled from the claim's wording "leading alphabetic token": the leading
    run of alphabetic characters, for comparison with the source's `\w+`. -/
def spec_leading_alpha_token (l : List Char) : List Char := l.takeWhile Char.isAlpha

/-- C5 counterexample: on the type string `"int8"` the code does not extract the
    leading alphabetic token (`"int"`): it extracts the leading word-character
    run `"int8"`, which is absent from the catalog and therefore maps to TEXT,
    while the leading alphabetic token would map to INTEGER. -/
theorem claim_C5_counterexample :
    extract_base_type (pyLower ("int8").data) = some (("int8").data) ∧
    spec_leading_alpha_token (pyLower ("int8").data) = ("int").data ∧
    pg_sized_type ("int8").data = some (("TEXT").data) ∧
    lookupType (spec_leading_alpha_token (pyLower ("int8").data)) = ("INTEGER").data ∧
    pg_sized_type ("int8").data ≠
      some (lookupType (spec_leading_alpha_token (pyLower ("int8").data))) := by
  decide

/-- Auxiliary: the head of `dropWhile p l` fails `p`. -/
theorem head_dropWhile_false {α : Type} (p : α → Bool) (l : List α) (c : α)
    (h : (l.dropWhile p).head? = some c) : p c = false := by
  induction l with
  | nil => simp [List.dropWhile] at h
  | cons hd tl ih =>
    rw [List.dropWhile] at h
    by_cases hp : p hd
    · rw [hp] at h; exact ih h
    · rw [Bool.not_eq_true] at hp
      rw [hp] at h
      simp only [List.head?_cons, Option.some.injEq] at h
      rw [← h]; exact hp

/-- C5 (amended): schema translation extracts the leading word-character run
    (letters, digits, underscore — Python `\w+`) of the lowercased type string
    as the base type; a base type absent from the catalog maps to TEXT; and the
    parenthesized size suffix is carried onto the target type exactly when the
    base type is varchar, char, decimal or numeric and the type string contains
    a parenthesis. -/
theorem claim_C5 (ct base : List Char)
    (hbase : extract_base_type (pyLower ct) = some base) :
    (base ≠ [] ∧ base.all isWordChar = true ∧
      (∃ rest, pyLower ct = base ++ rest ∧
        ∀ c, rest.head? = some c → isWordChar c = false)) ∧
    (TYPE_MAPPING.lookup base = none → lookupType base = ("TEXT").data) ∧
    ((ct.contains '(' && sizedFamilies.contains base) = false →
        pg_sized_type ct = some (lookupType base)) ∧
    (∀ sz, (ct.contains '(' && sizedFamilies.contains base) = true →
        extract_size ct = some sz →
        pg_sized_type ct = some (lookupType base ++ ('(' :: (sz ++ [')'])))) := by
  have hbase' : (pyLower ct).takeWhile isWordChar = base := by
    unfold extract_base_type at hbase
    rcases h : (pyLower ct).takeWhile isWordChar with _ | ⟨c, cs⟩
    · rw [h] at hbase; exact absurd hbase (by simp)
    · rw [h] at hbase
      simpa using hbase
  refine ⟨⟨?_, ?_, ?_⟩, ?_, ?_, ?_⟩
  · intro hnil
    unfold extract_base_type at hbase
    rw [hnil] at hbase
    rw [← hbase'] at hnil
    rw [hnil] at hbase
    exact absurd hbase (by simp)
  · rw [← hbase']
    rw [List.all_eq_true]
    intro c hc
    exact List.mem_takeWhile_imp hc
  · refine ⟨(pyLower ct).dropWhile isWordChar, ?_, ?_⟩
    · rw [← hbase', List.takeWhile_append_dropWhile]
    · intro c hc
      exact head_dropWhile_false _ _ _ hc
  · intro h
    unfold lookupType
    rw [h]
    rfl
  · intro h
    simp only [pg_sized_type, hbase]
    rw [h]
    simp
  · intro sz h hsz
    simp only [pg_sized_type, hbase]
    rw [h]
    simp [hsz]

/-- C5 witness: instantiating `claim_C5` at `"varchar(255)"` — base `"varchar"`,
    size carried; and at `"foo_type"` — unmapped base defaults to TEXT. -/
theorem claim_C5_witness :
    (pg_sized_type ("varchar(255)").data =
      some (lookupType ("varchar").data ++ ('(' :: (("255").data ++ [')'])))) ∧
    (lookupType ("foo_type").data = ("TEXT").data) ∧
    (pg_sized_type ("foo_type").data = some (lookupType ("foo_type").data)) := by
  refine ⟨?_, ?_, ?_⟩
  · exact (claim_C5 ("varchar(255)").data ("varchar").data (by decide)).2.2.2
      ("255").data (by decide) (by decide)
  · exact (claim_C5 ("foo_type").data ("foo_type").data (by decide)).2.1 (by decide)
  · exact (claim_C5 ("foo_type").data ("foo_type").data (by decide)).2.2.1 (by decide)

/-- C9 counterexample: mapping the base-type token `"int"` through the catalog
    twice yields TEXT, not the single-mapping result INTEGER. -/
theorem claim_C9_counterexample :
    lookupType (lookupType ("int").data) ≠ lookupType ("int").data := by
  decide

/-- C9 (amended): a second pass through the catalog always collapses to the
    generic text type (catalog keys are lowercase MySQL tokens, its values
    uppercase PostgreSQL names, so no value is a key); hence double mapping
    equals single mapping exactly when the single mapping already yields TEXT,
    and idempotence fails for every token mapped to any other type. -/
theorem claim_C9 (t : List Char) :
    lookupType (lookupType t) = ("TEXT").data ∧
    (lookupType (lookupType t) = lookupType t ↔ lookupType t = ("TEXT").data) := by
  have hval : ∀ w ∈ TYPE_MAPPING.map Prod.snd, lookupType w = ("TEXT").data := by decide
  have htext : lookupType (("TEXT").data) = ("TEXT").data := by decide
  have hmain : lookupType (lookupType t) = ("TEXT").data := by
    cases h : TYPE_MAPPING.lookup t with
    | none =>
        unfold lookupType
        rw [h]
        exact htext
    | some v =>
        have hv : v ∈ TYPE_MAPPING.map Prod.snd := lookup_mem_snd _ _ _ h
        have : lookupType t = v := by unfold lookupType; rw [h]; rfl
        rw [this]
        exact hval v hv
  refine ⟨hmain, ?_, ?_⟩
  · intro h; rw [← h]; exact hmain
  · intro h; rw [h]; exact htext

/-- C9 witness: `claim_C9` at the token `int` — the double mapping collapses
    to TEXT. -/
theorem claim_C9_witness :
    lookupType (lookupType ("int").data) = ("TEXT").data :=
  (claim_C9 ("int").data).1

/-! ### Default values (lines 248-264)

`float(col_default)` is modelled by `pyFloatValid`, a translation of the CPython
`float` grammar on ASCII input: surrounding whitespace, an optional sign, then
`inf`/`infinity`/`nan` (case-insensitive) or a decimal literal with optional
fraction and exponent; underscores are allowed as digit separators. -/

def isPyWs (c : Char) : Bool :=
  c == ' ' || c == '\t' || c == '\n' || c == '\r' || c.toNat == 11 || c.toNat == 12

/-- The rest of a CPython digit part after its first digit: further digits,
    with single underscores allowed only between digits. -/
def digitsRest : List Char → List Char
  | '_' :: c :: cs => if c.isDigit then digitsRest cs else '_' :: c :: cs
  | c :: cs => if c.isDigit then digitsRest cs else c :: cs
  | [] => []

/-- A CPython digit part: at least one digit; returns the unconsumed rest. -/
def digitpart : List Char → Option (List Char)
  | c :: cs => if c.isDigit then some (digitsRest cs) else none
  | [] => none

/-- An optional exponent (`e`/`E`, optional sign, digit part) followed by the
    end of the input. -/
def expPart : List Char → Bool
  | [] => true
  | c :: cs =>
      if c == 'e' || c == 'E' then
        let cs2 := match cs with
          | s :: t => if s == '+' || s == '-' then t else s :: t
          | [] => []
        match digitpart cs2 with
        | some rest => rest.isEmpty
        | none => false
      else false

/-- After an integer part: an optional fraction (dot with optional digits),
    then an optional exponent, then the end of the input. -/
def fracExp : List Char → Bool
  | '.' :: cs =>
      (match digitpart cs with
       | some rest => expPart rest
       | none => expPart cs)
  | l => expPart l

/-- A decimal float literal body (after the sign): integer part and/or
    fraction, optional exponent. -/
def floatNumeric (l : List Char) : Bool :=
  match digitpart l with
  | some rest => fracExp rest
  | none =>
      match l with
      | '.' :: cs =>
          (match digitpart cs with
           | some rest => expPart rest
           | none => false)
      | _ => false

def floatNamed (l : List Char) : Bool :=
  pyLower l == ("inf").data || pyLower l == ("infinity").data || pyLower l == ("nan").data

def stripSign : List Char → List Char
  | c :: cs => if c == '+' || c == '-' then cs else c :: cs
  | [] => []

/-- Model of `float(s)` succeeding (the `try: float(col_default)` test of
    line 259). -/
def pyFloatValid (s : List Char) : Bool :=
  let t := ((s.dropWhile isPyWs).reverse.dropWhile isPyWs).reverse
  let u := stripSign t
  floatNamed u || floatNumeric u

/-- Embedding of `col_default.replace("'", "''")` (lines 254 and 263): the
    needle is the single character `'`, so each occurrence is doubled. -/
def escape_quotes : List Char → List Char
  | [] => []
  | c :: cs => if c = '\'' then '\'' :: '\'' :: escape_quotes cs else c :: escape_quotes cs

/-- The string-or-enumerated base types of line 252. -/
def stringFamilies : List (List Char) :=
  [("char").data, ("varchar").data, ("text").data, ("enum").data]

def CURRENT_TS : List Char := ("CURRENT_TIMESTAMP").data

/-- Embedding of the default-clause construction (lines 248-264): the suffix
    the code appends to a column definition for default `colDefault`.
    A column whose `Extra` contains `auto_increment` never gets a clause. -/
def default_clause (baseType : List Char) (colDefault : Option (List Char))
    (extra : List Char) : List Char :=
  match colDefault with
  | none => []
  | some d =>
      if hasAutoInc extra then []
      else if d == CURRENT_TS then (" DEFAULT CURRENT_TIMESTAMP").data
      else if stringFamilies.contains baseType then
        (" DEFAULT '").data ++ escape_quotes d ++ ['\'']
      else if pyFloatValid d then (" DEFAULT ").data ++ d
      else (" DEFAULT '").data ++ escape_quotes d ++ ['\'']

/-- A PostgreSQL single-quoted-literal scanner, used to state that an escaped
    default never breaks the statement: after an opening quote, `''` decodes to
    one quote and a lone `'` closes the literal; returns the decoded content
    and the input left after the closing quote. -/
def sqlLitScan : List Char → Option (List Char × List Char)
  | [] => none
  | c :: cs =>
      if c = '\'' then
        match cs with
        | '\'' :: cs2 => (sqlLitScan cs2).map (fun p => ('\'' :: p.1, p.2))
        | _ => some ([], cs)
      else (sqlLitScan cs).map (fun p => (c :: p.1, p.2))

/-- Scanning the emitted escaped literal recovers exactly the original default
    and consumes the whole clause: the embedded quotes cannot terminate the
    literal early. -/
theorem sqlLitScan_escape_quotes (d : List Char) :
    sqlLitScan (escape_quotes d ++ ['\'']) = some (d, []) := by
  induction d with
  | nil => simp [escape_quotes, sqlLitScan]
  | cons c cs ih =>
    by_cases hc : c = '\''
    · subst hc
      simp only [escape_quotes, if_pos rfl, List.cons_append]
      simp [sqlLitScan, ih]
    · simp only [escape_quotes, if_neg hc, List.cons_append]
      rw [sqlLitScan.eq_def]
      simp [hc, ih]

/-- Escaping doubles the quote count: each embedded single quote of the default
    appears twice in the emitted text. -/
theorem escape_quotes_count (d : List Char) :
    (escape_quotes d).count '\'' = 2 * d.count '\'' := by
  induction d with
  | nil => rfl
  | cons c cs ih =>
    by_cases hc : c = '\''
    · subst hc
      simp [escape_quotes, List.count_cons, ih]
      ring
    · simp [escape_quotes, hc, List.count_cons, ih]

/-- C6 counterexample: for the non-string type `datetime` with source default
    `CURRENT_TIMESTAMP` — which does not parse as a number — the code emits the
    default unquoted, refuting "a default for a non-string type is emitted
    unquoted only if it parses as a number, otherwise it is escaped and emitted
    as a quoted string". -/
theorem claim_C6_counterexample :
    stringFamilies.contains (("datetime").data) = false ∧
    pyFloatValid CURRENT_TS = false ∧
    default_clause (("datetime").data) (some CURRENT_TS) [] =
      (" DEFAULT CURRENT_TIMESTAMP").data ∧
    default_clause (("datetime").data) (some CURRENT_TS) [] ≠
      (" DEFAULT '").data ++ escape_quotes CURRENT_TS ++ ['\''] := by
  decide

/-- C6 (amended): except for the sentinel default `CURRENT_TIMESTAMP` (mapped
    verbatim to the target's CURRENT_TIMESTAMP), a string/enumerated default is
    emitted quoted with every embedded single quote doubled — so the quote
    count doubles and a literal scanner recovers the default intact — and a
    default for a non-string type is emitted unquoted exactly when it parses as
    a number, otherwise escaped and quoted; an auto-increment column never
    receives a default clause. -/
theorem claim_C6 (base d extra : List Char) :
    (hasAutoInc extra = true → ∀ dv : Option (List Char), default_clause base dv extra = []) ∧
    (hasAutoInc extra = false → (d == CURRENT_TS) = false →
      ((stringFamilies.contains base = true →
          default_clause base (some d) extra =
            (" DEFAULT '").data ++ escape_quotes d ++ ['\''] ∧
          sqlLitScan (escape_quotes d ++ ['\'']) = some (d, []) ∧
          (escape_quotes d).count '\'' = 2 * d.count '\'') ∧
       (stringFamilies.contains base = false →
          (pyFloatValid d = true →
            default_clause base (some d) extra = (" DEFAULT ").data ++ d) ∧
          (pyFloatValid d = false →
            default_clause base (some d) extra =
              (" DEFAULT '").data ++ escape_quotes d ++ ['\''] ∧
            sqlLitScan (escape_quotes d ++ ['\'']) = some (d, []))))) := by
  constructor
  · intro hai dv
    cases dv with
    | none => rfl
    | some d0 => simp [default_clause, hai]
  · intro hai hct
    constructor
    · intro hfam
      refine ⟨?_, sqlLitScan_escape_quotes d, escape_quotes_count d⟩
      simp only [default_clause]
      rw [hai, hct, hfam]
      simp
    · intro hfam
      constructor
      · intro hf
        simp only [default_clause]
        rw [hai, hct, hfam, hf]
        simp
      · intro hf
        refine ⟨?_, sqlLitScan_escape_quotes d⟩
        simp only [default_clause]
        rw [hai, hct, hfam, hf]
        simp

/-- C6 witness: `claim_C6` at concrete columns — a varchar default `O'Brien`
    is emitted with the quote doubled, an int default `5` unquoted, an int
    default `abc` quoted. -/
theorem claim_C6_witness :
    default_clause (("varchar").data) (some (("O'Brien").data)) [] =
      (" DEFAULT '").data ++ escape_quotes (("O'Brien").data) ++ ['\''] ∧
    default_clause (("int").data) (some (("5").data)) [] = (" DEFAULT ").data ++ ("5").data ∧
    default_clause (("int").data) (some (("abc").data)) [] =
      (" DEFAULT '").data ++ escape_quotes (("abc").data) ++ ['\''] ∧
    default_clause (("int").data) (some (("5").data)) (("auto_increment").data) = [] := by
  refine ⟨?_, ?_, ?_, ?_⟩
  · exact ((claim_C6 (("varchar").data) (("O'Brien").data) []).2 (by decide) (by decide)).1
      (by decide) |>.1
  · exact (((claim_C6 (("int").data) (("5").data) []).2 (by decide) (by decide)).2
      (by decide)).1 (by decide)
  · exact ((((claim_C6 (("int").data) (("abc").data) []).2 (by decide) (by decide)).2
      (by decide)).2 (by decide)).1
  · exact (claim_C6 (("int").data) (("5").data) (("auto_increment").data)).1 (by decide) _

/-! ### Column definitions (`get_table_schema`, lines 203-272) and the
identifiers emitted toward PostgreSQL (C10) -/

/-- One row of `DESCRIBE`: `Field, Type, Null, Key, Default, Extra`. -/
structure ColumnMeta where
  field : List Char
  type : List Char
  nulls : List Char
  key : List Char
  default : Option (List Char)
  extra : List Char

/-- Embedding of the per-column body of `get_table_schema` (lines 215-266):
    the full column definition string; `none` models a Python exception from
    the regex extraction. -/
def column_def (c : ColumnMeta) : Option (List Char) :=
  match extract_base_type (pyLower c.type) with
  | none => none
  | some base =>
      match pg_sized_type c.type with
      | none => none
      | some pg0 =>
          let pg := apply_serial pg0 c.extra
          some (pyLower c.field ++ ' ' :: pg
            ++ (if c.nulls == ("NO").data then (" NOT NULL").data else [])
            ++ default_clause base c.default c.extra)

/-- The column-definition list of `get_table_schema` (`none` if any column
    fails to translate). -/
def column_defs : List ColumnMeta → Option (List (List Char))
  | [] => some []
  | c :: cs =>
      match column_def c, column_defs cs with
      | some d, some ds => some (d :: ds)
      | _, _ => none

/-- The primary-key list of `get_table_schema` (lines 269-270): lowercased
    names of the `PRI` columns, in column order. -/
def primary_keys (cols : List ColumnMeta) : List (List Char) :=
  (cols.filter (fun c => c.key == ("PRI").data)).map (fun c => pyLower c.field)

/-- A foreign-key row (`COLUMN_NAME, REFERENCED_TABLE_NAME,
    REFERENCED_COLUMN_NAME`). -/
structure FkMeta where
  column : List Char
  refTable : List Char
  refColumn : List Char

/-- An index group from `get_indexes_and_constraints`. -/
structure IndexMeta where
  name : List Char
  columns : List (List Char)
  uniq : Bool

/-- The generated FK constraint name `fk_<table>_<column>` (line 415; the
    column component was lowercased at line 409). -/
def fk_constraint_name (tableName colName : List Char) : List Char :=
  ("fk_").data ++ pyLower tableName ++ '_' :: pyLower colName

/-- The generated unique-constraint name `uk_<table>_<index>` (line 500). -/
def uk_name (tableName idxName : List Char) : List Char :=
  ("uk_").data ++ pyLower tableName ++ '_' :: pyLower idxName

/-- The generated index name `idx_<table>_<index>` (line 514). -/
def idx_name (tableName idxName : List Char) : List Char :=
  ("idx_").data ++ pyLower tableName ++ '_' :: pyLower idxName

/-- The identifiers `create_pg_table` passes to `psycopg2.sql.Identifier`
    (lines 374-397): the table in DROP, the table in CREATE, the primary-key
    columns. -/
def create_pg_table_identifiers (tableName : List Char) (pkeys : List (List Char)) :
    List (List Char) :=
  pyLower tableName :: pyLower tableName :: pkeys

/-- The identifiers of the INSERT built by `migrate_table_data`
    (lines 690-704): the table name and the column names, lowercased. -/
def insert_identifiers (tableName : List Char) (colNames : List (List Char)) :
    List (List Char) :=
  pyLower tableName :: colNames.map pyLower

/-- The identifiers of the ALTER TABLE ... ADD CONSTRAINT ... FOREIGN KEY
    statements of `add_foreign_keys` (lines 408-447), per FK row. -/
def add_foreign_keys_identifiers (tableName : List Char) (fks : List FkMeta) :
    List (List Char) :=
  (fks.map (fun fk =>
    [pyLower tableName, fk_constraint_name tableName fk.column, pyLower fk.column,
     pyLower fk.refTable, pyLower fk.refColumn])).flatten

/-- The identifiers of `create_indexes_and_constraints` (lines 495-521), per
    index group, in statement order. -/
def index_identifiers (tableName : List Char) (idxs : List IndexMeta) :
    List (List Char) :=
  (idxs.map (fun ix =>
    if ix.uniq then
      pyLower tableName :: uk_name tableName ix.name :: ix.columns.map pyLower
    else
      idx_name tableName ix.name :: pyLower tableName :: ix.columns.map pyLower)).flatten

/-- All identifiers of one table's migration that reach the target database:
    the column-definition heads and primary keys of `get_table_schema`, the
    `create_pg_table` identifiers, the INSERT identifiers, the FK identifiers,
    and the index/unique-constraint identifiers. -/
def emitted_identifiers (tableName : List Char) (cols : List ColumnMeta)
    (fks : List FkMeta) (idxs : List IndexMeta) : List (List Char) :=
  cols.map (fun c => pyLower c.field)
    ++ primary_keys cols
    ++ create_pg_table_identifiers tableName (primary_keys cols)
    ++ insert_identifiers tableName (cols.map (fun c => c.field))
    ++ add_foreign_keys_identifiers tableName fks
    ++ index_identifiers tableName idxs

/-- A string is lowercase when Python lowercasing fixes it. -/
def IsLowered (l : List Char) : Prop := pyLower l = l

theorem pyLower_idem (l : List Char) : IsLowered (pyLower l) := by
  unfold IsLowered pyLower
  rw [List.map_map]
  apply List.map_congr_left
  intro c _
  exact asciiLower_idem c

theorem IsLowered.append {a b : List Char} (ha : IsLowered a) (hb : IsLowered b) :
    IsLowered (a ++ b) := by
  unfold IsLowered pyLower at *
  rw [List.map_append, ha, hb]

theorem IsLowered.cons {c : Char} {t : List Char} (hc : asciiLower c = c)
    (ht : IsLowered t) : IsLowered (c :: t) := by
  unfold IsLowered pyLower at *
  rw [List.map_cons, hc, ht]

theorem isLowered_underscore_cons (c : List Char) : IsLowered ('_' :: pyLower c) :=
  IsLowered.cons (by decide) (pyLower_idem c)

theorem isLowered_fk_name (t c : List Char) : IsLowered (fk_constraint_name t c) := by
  have h1 : IsLowered (("fk_").data) := by unfold IsLowered; decide
  unfold fk_constraint_name
  exact h1.append ((pyLower_idem t).append (isLowered_underscore_cons c))

theorem isLowered_uk_name (t c : List Char) : IsLowered (uk_name t c) := by
  have h1 : IsLowered (("uk_").data) := by unfold IsLowered; decide
  unfold uk_name
  exact h1.append ((pyLower_idem t).append (isLowered_underscore_cons c))

theorem isLowered_idx_name (t c : List Char) : IsLowered (idx_name t c) := by
  have h1 : IsLowered (("idx_").data) := by unfold IsLowered; decide
  unfold idx_name
  exact h1.append ((pyLower_idem t).append (isLowered_underscore_cons c))

theorem all_lowered_primary_keys (cols : List ColumnMeta) :
    ∀ s ∈ primary_keys cols, IsLowered s := by
  intro s hs
  unfold primary_keys at hs
  obtain ⟨c, _, rfl⟩ := List.mem_map.mp hs
  exact pyLower_idem _

theorem all_lowered_create (t : List Char) (pk : List (List Char))
    (hpk : ∀ s ∈ pk, IsLowered s) :
    ∀ s ∈ create_pg_table_identifiers t pk, IsLowered s := by
  intro s hs
  unfold create_pg_table_identifiers at hs
  rcases hs with _ | ⟨_, hs⟩
  · exact pyLower_idem _
  · rcases hs with _ | ⟨_, hs⟩
    · exact pyLower_idem _
    · exact hpk s hs

theorem all_lowered_insert (t : List Char) (ns : List (List Char)) :
    ∀ s ∈ insert_identifiers t ns, IsLowered s := by
  intro s hs
  unfold insert_identifiers at hs
  rcases hs with _ | ⟨_, hs⟩
  · exact pyLower_idem _
  · obtain ⟨c, _, rfl⟩ := List.mem_map.mp hs
    exact pyLower_idem _

theorem all_lowered_fks (t : List Char) (fks : List FkMeta) :
    ∀ s ∈ add_foreign_keys_identifiers t fks, IsLowered s := by
  intro s hs
  unfold add_foreign_keys_identifiers at hs
  rw [List.mem_flatten] at hs
  obtain ⟨l, hl, hsl⟩ := hs
  obtain ⟨fk, _, rfl⟩ := List.mem_map.mp hl
  rcases hsl with _ | ⟨_, hsl⟩
  · exact pyLower_idem _
  · rcases hsl with _ | ⟨_, hsl⟩
    · exact isLowered_fk_name _ _
    · rcases hsl with _ | ⟨_, hsl⟩
      · exact pyLower_idem _
      · rcases hsl with _ | ⟨_, hsl⟩
        · exact pyLower_idem _
        · rcases hsl with _ | ⟨_, hsl⟩
          · exact pyLower_idem _
          · exact absurd hsl (List.not_mem_nil _)

theorem all_lowered_idxs (t : List Char) (idxs : List IndexMeta) :
    ∀ s ∈ index_identifiers t idxs, IsLowered s := by
  intro s hs
  unfold index_identifiers at hs
  rw [List.mem_flatten] at hs
  obtain ⟨l, hl, hsl⟩ := hs
  obtain ⟨ix, _, rfl⟩ := List.mem_map.mp hl
  by_cases hu : ix.uniq
  · rw [if_pos hu] at hsl
    rcases hsl with _ | ⟨_, hsl⟩
    · exact pyLower_idem _
    · rcases hsl with _ | ⟨_, hsl⟩
      · exact isLowered_uk_name _ _
      · obtain ⟨c, _, rfl⟩ := List.mem_map.mp hsl
        exact pyLower_idem _
  · rw [if_neg hu] at hsl
    rcases hsl with _ | ⟨_, hsl⟩
    · exact isLowered_idx_name _ _
    · rcases hsl with _ | ⟨_, hsl⟩
      · exact pyLower_idem _
      · obtain ⟨c, _, rfl⟩ := List.mem_map.mp hsl
        exact pyLower_idem _

/-- C10: every identifier emitted toward the target database — created table
    name, column-definition and primary-key names, INSERT identifiers, FK and
    index statement identifiers including the generated `fk_`/`uk_`/`idx_`
    constraint names — is lowercase (a fixed point of lowercasing), regardless
    of the case of the source identifiers. -/
theorem claim_C10 (tableName : List Char) (cols : List ColumnMeta)
    (fks : List FkMeta) (idxs : List IndexMeta) :
    ∀ s ∈ emitted_identifiers tableName cols fks idxs, IsLowered s := by
  intro s hs
  unfold emitted_identifiers at hs
  simp only [List.mem_append] at hs
  rcases hs with ((((h | h) | h) | h) | h) | h
  · obtain ⟨c, _, rfl⟩ := List.mem_map.mp h
    exact pyLower_idem _
  · exact all_lowered_primary_keys cols s h
  · exact all_lowered_create _ _ (all_lowered_primary_keys cols) s h
  · exact all_lowered_insert _ _ s h
  · exact all_lowered_fks _ _ s h
  · exact all_lowered_idxs _ _ s h

/-- C10 witness: `claim_C10` at a mixed-case table — the FK constraint name
    generated for table `UserOrders`, column `CustomerID` is a lowercase
    fixed point. -/
theorem claim_C10_witness :
    pyLower (fk_constraint_name ("UserOrders").data ("CustomerID").data) =
      fk_constraint_name ("UserOrders").data ("CustomerID").data := by
  have h := claim_C10 ("UserOrders").data [] [⟨("CustomerID").data, ("Customers").data, ("ID").data⟩] []
  exact h (fk_constraint_name ("UserOrders").data ("CustomerID").data) (by decide)

/-! ### Batched data transfer (`migrate_table_data`, lines 658-737)

The target database is modelled by a per-row acceptance predicate `ok`:
`psycopg2.extras.execute_batch` succeeds exactly when every row of the batch is
accepted, and a single-row INSERT succeeds exactly when that row is accepted.
The transcript of commits/rollbacks/drop logs is recorded as a list of
events. -/

inductive DbEvent (α : Type) where
  | batchInsert (rows : List α)
  | commit
  | rollback
  | rowInsert (r : α)
  | logDrop (r : α)
  deriving DecidableEq, Repr

/-- The row-by-row fallback loop (lines 726-734): every row of the failed
    batch is retried individually and committed independently; a row that
    still fails is rolled back, logged, and dropped. -/
def row_fallback {α : Type} (ok : α → Bool) : List α → Nat × List (DbEvent α)
  | [] => (0, [])
  | r :: rs =>
      let rest := row_fallback ok rs
      if ok r then (rest.1 + 1, DbEvent.rowInsert r :: DbEvent.commit :: rest.2)
      else (rest.1, DbEvent.rowInsert r :: DbEvent.rollback :: DbEvent.logDrop r :: rest.2)

/-- One batch of `migrate_table_data` (lines 716-734): the batch is written as
    one bulk insert and committed; on failure the partial transaction segment
    is rolled back and the batch falls back to `row_fallback`. Returns the
    rows inserted and the event transcript. -/
def migrate_batch {α : Type} (ok : α → Bool) (batch : List α) : Nat × List (DbEvent α) :=
  if batch.all ok then
    (batch.length, [DbEvent.batchInsert batch, DbEvent.commit])
  else
    let fb := row_fallback ok batch
    (fb.1, DbEvent.batchInsert batch :: DbEvent.rollback :: fb.2)

/-- The rows permanently dropped according to a transcript. -/
def droppedRows {α : Type} (evs : List (DbEvent α)) : List α :=
  evs.filterMap (fun e =>
    match e with
    | DbEvent.logDrop r => some r
    | _ => none)

theorem countP_add_filter_not {α : Type} (p : α → Bool) (l : List α) :
    l.countP p + (l.filter (fun a => !(p a))).length = l.length := by
  induction l with
  | nil => rfl
  | cons a l ih =>
    by_cases h : p a <;> simp [List.countP_cons, List.filter_cons, h] <;> omega

theorem row_fallback_count {α : Type} (ok : α → Bool) (l : List α) :
    (row_fallback ok l).1 = l.countP ok := by
  induction l with
  | nil => rfl
  | cons r rs ih =>
    by_cases h : ok r <;> simp [row_fallback, h, ih, List.countP_cons]

theorem row_fallback_dropped {α : Type} (ok : α → Bool) (l : List α) :
    droppedRows (row_fallback ok l).2 = l.filter (fun r => !(ok r)) := by
  induction l with
  | nil => rfl
  | cons r rs ih =>
    by_cases h : ok r <;> simp [row_fallback, droppedRows, h, ih, List.filter_cons] <;>
      simpa [droppedRows] using ih

/-- C1: each batch is one bulk insert; an all-accepted batch commits as a
    whole; a failing batch is rolled back and retried row by row, so that the
    rows inserted are exactly the accepted rows and the dropped rows exactly
    the rejected rows — in particular a 1000-row batch with exactly one
    rejected row inserts 999 rows and drops exactly 1. -/
theorem claim_C1 {α : Type} (ok : α → Bool) (batch : List α) :
    ((migrate_batch ok batch).1 = batch.countP ok) ∧
    (droppedRows (migrate_batch ok batch).2 = batch.filter (fun r => !(ok r))) ∧
    (batch.all ok = true →
       (migrate_batch ok batch).2 = [DbEvent.batchInsert batch, DbEvent.commit]) ∧
    (batch.all ok = false →
       (migrate_batch ok batch).2 =
         DbEvent.batchInsert batch :: DbEvent.rollback :: (row_fallback ok batch).2) ∧
    (batch.length = 1000 → (batch.filter (fun r => !(ok r))).length = 1 →
       (migrate_batch ok batch).1 = 999 ∧
       (droppedRows (migrate_batch ok batch).2).length = 1) := by
  have hcount : (migrate_batch ok batch).1 = batch.countP ok := by
    by_cases h : batch.all ok
    · simp only [migrate_batch, if_pos h]
      rw [List.all_eq_true] at h
      symm
      rw [List.countP_eq_length]
      intro a ha
      exact h a ha
    · simp only [migrate_batch, if_neg h]
      exact row_fallback_count ok batch
  have hdrop : droppedRows (migrate_batch ok batch).2 = batch.filter (fun r => !(ok r)) := by
    by_cases h : batch.all ok
    · simp only [migrate_batch, if_pos h]
      rw [List.all_eq_true] at h
      have : batch.filter (fun r => !(ok r)) = [] := by
        rw [List.filter_eq_nil_iff]
        intro a ha
        simp [h a ha]
      rw [this]
      rfl
    · simp only [migrate_batch, if_neg h]
      exact row_fallback_dropped ok batch
  refine ⟨hcount, hdrop, ?_, ?_, ?_⟩
  · intro h
    simp [migrate_batch, h]
  · intro h
    simp [migrate_batch, h]
  · intro hlen hone
    have key := countP_add_filter_not ok batch
    constructor
    · rw [hcount]
      omega
    · rw [hdrop]
      exact hone

set_option maxRecDepth 8000 in
/-- C1 witness: `claim_C1` on a concrete 1000-row batch in which exactly row
    501 (value 500) is rejected: 999 inserted, 1 dropped. -/
theorem claim_C1_witness :
    (migrate_batch (fun r : Nat => !(r == 500)) (List.range 1000)).1 = 999 ∧
    (droppedRows (migrate_batch (fun r : Nat => !(r == 500)) (List.range 1000)).2).length = 1 := by
  exact (claim_C1 (fun r : Nat => !(r == 500)) (List.range 1000)).2.2.2.2
    (by simp) (by decide)

/-! ### Validation severity (`validate_data_integrity` lines 635-656,
`validate_foreign_keys` lines 596-633, `migrate_all` lines 783-898)

The live databases are abstracted per table: the source row count, the target
row count after transfer, and the orphan count the orphan query would report
for each FK of the table. -/

inductive LogLevel where
  | info
  | warning
  | error
  deriving DecidableEq, Repr

structure TableInfo where
  name : List Char
  srcCount : Nat
  tgtCount : Nat
  orphans : List Nat

/-- `validate_data_integrity` (lines 635-656): source and target row counts
    are compared; `False` on mismatch. -/
def validate_data_integrity (t : TableInfo) : Bool := t.srcCount == t.tgtCount

/-- `validate_foreign_keys` (lines 596-633): walks the table's FKs in order;
    the first positive orphan count is logged as a warning and the function
    returns `False` immediately; otherwise logs info per FK and returns
    `True`. It never raises or aborts anything. -/
def validate_foreign_keys : List Nat → Bool × List LogLevel
  | [] => (true, [])
  | n :: ns =>
      if n > 0 then (false, [LogLevel.warning])
      else
        let rest := validate_foreign_keys ns
        (rest.1, LogLevel.info :: rest.2)

inductive Action where
  | createTable (t : List Char)
  | transfer (t : List Char)
  | rowCountCheck (t : List Char)
  | updateSeq (t : List Char)
  | createIndexes (t : List Char)
  | addFKs (t : List Char)
  | orphanCheck (t : List Char)
  | commit
  | rollback
  deriving DecidableEq, Repr

/-- Pass 2 of `migrate_all` (lines 830-839): transfer each table, then
    validate its row count; a mismatch raises, skipping all remaining work.
    Returns the actions performed and whether the pass completed. -/
def data_pass : List TableInfo → List Action × Bool
  | [] => ([], true)
  | t :: ts =>
      if validate_data_integrity t then
        let rest := data_pass ts
        (Action.transfer t.name :: Action.rowCountCheck t.name :: rest.1, rest.2)
      else ([Action.transfer t.name, Action.rowCountCheck t.name], false)

/-- Embedding of the pass structure of `migrate_all` (lines 810-898): create
    all tables; per-table transfer and row-count check with the raise on first
    mismatch caught by the top-level handler (rollback, return); then
    sequences, indexes/unique constraints, FKs in reverse dependency order,
    per-table orphan checks (warnings only), and commit. Returns the actions
    performed and whether the run committed. -/
def migrate_all (tables : List TableInfo) : List Action × Bool :=
  let p1 := tables.map (fun t => Action.createTable t.name)
  let p2 := data_pass tables
  if p2.2 then
    (p1 ++ p2.1
      ++ tables.map (fun t => Action.updateSeq t.name)
      ++ tables.map (fun t => Action.createIndexes t.name)
      ++ (tables.reverse.map (fun t => Action.addFKs t.name))
      ++ tables.map (fun t => Action.orphanCheck t.name)
      ++ [Action.commit], true)
  else (p1 ++ p2.1 ++ [Action.rollback], false)

theorem data_pass_ok (ts : List TableInfo) :
    (data_pass ts).2 = true ↔ ∀ t ∈ ts, t.srcCount = t.tgtCount := by
  induction ts with
  | nil => simp [data_pass]
  | cons t ts ih =>
    by_cases h : validate_data_integrity t
    · have h' : t.srcCount = t.tgtCount := by
        simpa [validate_data_integrity] using h
      simp [data_pass, h, ih, h']
    · have h' : ¬ t.srcCount = t.tgtCount := by
        simpa [validate_data_integrity] using h
      simp [data_pass, h, h']

theorem data_pass_actions (ts : List TableInfo) :
    ∀ a ∈ (data_pass ts).1, (∃ n, a = Action.transfer n) ∨ (∃ n, a = Action.rowCountCheck n) := by
  induction ts with
  | nil => intro a ha; simp [data_pass] at ha
  | cons t ts ih =>
    intro a ha
    by_cases h : validate_data_integrity t
    · simp only [data_pass, if_pos h] at ha
      rcases List.mem_cons.mp ha with rfl | ha2
      · exact Or.inl ⟨t.name, rfl⟩
      · rcases List.mem_cons.mp ha2 with rfl | ha3
        · exact Or.inr ⟨t.name, rfl⟩
        · exact ih a ha3
    · simp only [data_pass, if_neg h] at ha
      rcases List.mem_cons.mp ha with rfl | ha2
      · exact Or.inl ⟨t.name, rfl⟩
      · rcases List.mem_cons.mp ha2 with rfl | ha3
        · exact Or.inr ⟨t.name, rfl⟩
        · exact absurd ha3 (List.not_mem_nil a)

/-- When the data pass fails, every action the run performed is a table
    creation, a transfer, a row-count check or the final rollback. -/
theorem aborted_run_actions (tables : List TableInfo)
    (hp2 : (data_pass tables).2 = false) :
    ∀ a ∈ (migrate_all tables).1,
      (∃ n, a = Action.createTable n) ∨ (∃ n, a = Action.transfer n) ∨
      (∃ n, a = Action.rowCountCheck n) ∨ a = Action.rollback := by
  intro a ha
  simp only [migrate_all, hp2, Bool.false_eq_true, if_false] at ha
  rcases List.mem_append.mp ha with h | h
  · rcases List.mem_append.mp h with h2 | h2
    · obtain ⟨u, _, rfl⟩ := List.mem_map.mp h2
      exact Or.inl ⟨u.name, rfl⟩
    · rcases data_pass_actions tables a h2 with h3 | h3
      · exact Or.inr (Or.inl h3)
      · exact Or.inr (Or.inr (Or.inl h3))
  · rcases List.mem_cons.mp h with rfl | h2
    · exact Or.inr (Or.inr (Or.inr rfl))
    · exact absurd h2 (List.not_mem_nil a)

/-- C3: validation severity is asymmetric. A source-vs-target row-count
    mismatch on any table makes the run roll back and abort: no sequence,
    index/unique-constraint or foreign-key action is ever performed. When all
    row counts match, the run commits whatever the orphan counts are; and a
    positive orphan count only yields a warning-level log entry from the
    orphan check (which reports `False`, never an abort). -/
theorem claim_C3 (tables : List TableInfo) :
    ((∃ t ∈ tables, t.srcCount ≠ t.tgtCount) →
       (migrate_all tables).2 = false ∧
       Action.rollback ∈ (migrate_all tables).1 ∧
       (∀ n, Action.createIndexes n ∉ (migrate_all tables).1 ∧
             Action.addFKs n ∉ (migrate_all tables).1 ∧
             Action.updateSeq n ∉ (migrate_all tables).1)) ∧
    ((∀ t ∈ tables, t.srcCount = t.tgtCount) →
       (migrate_all tables).2 = true ∧ Action.commit ∈ (migrate_all tables).1) ∧
    (∀ orphans, (∃ n ∈ orphans, 0 < n) →
       (validate_foreign_keys orphans).1 = false ∧
       LogLevel.warning ∈ (validate_foreign_keys orphans).2) := by
  refine ⟨?_, ?_, ?_⟩
  · intro ⟨t, ht, hne⟩
    have hp2 : (data_pass tables).2 = false := by
      cases h : (data_pass tables).2 with
      | false => rfl
      | true => exact absurd ((data_pass_ok tables).mp h t ht) hne
    refine ⟨by simp [migrate_all, hp2], by simp [migrate_all, hp2], ?_⟩
    intro n
    refine ⟨?_, ?_, ?_⟩ <;>
      · intro hmem
        rcases aborted_run_actions tables hp2 _ hmem with ⟨m, h⟩ | ⟨m, h⟩ | ⟨m, h⟩ | h <;>
          simp at h
  · intro hall
    have hp2 : (data_pass tables).2 = true := (data_pass_ok tables).mpr hall
    constructor
    · simp [migrate_all, hp2]
    · simp [migrate_all, hp2]
  · intro orphans
    induction orphans with
    | nil => intro h; simp at h
    | cons n ns ih =>
      intro h
      by_cases hn : n > 0
      · simp [validate_foreign_keys, hn]
      · obtain ⟨m, hm, hmpos⟩ := h
        rcases List.mem_cons.mp hm with rfl | hm2
        · exact absurd hmpos hn
        · have hres := ih ⟨m, hm2, hmpos⟩
          refine ⟨?_, ?_⟩
          · simp [validate_foreign_keys, hn, hres.1]
          · simp [validate_foreign_keys, hn, hres.2]

/-- C3 witness: `claim_C3` at concrete runs — a mismatching table aborts with
    no constraint action; matching counts with a positive orphan count still
    commit, the orphan check reporting a warning. -/
theorem claim_C3_witness :
    ((migrate_all [⟨("a").data, 5, 4, []⟩]).2 = false ∧
      Action.rollback ∈ (migrate_all [⟨("a").data, 5, 4, []⟩]).1) ∧
    ((migrate_all [⟨("a").data, 5, 5, [2]⟩]).2 = true ∧
      Action.commit ∈ (migrate_all [⟨("a").data, 5, 5, [2]⟩]).1) ∧
    ((validate_foreign_keys [2]).1 = false ∧
      LogLevel.warning ∈ (validate_foreign_keys [2]).2) := by
  refine ⟨?_, ?_, ?_⟩
  · have h := (claim_C3 [⟨("a").data, 5, 4, []⟩]).1
      ⟨⟨("a").data, 5, 4, []⟩, by simp, by decide⟩
    exact ⟨h.1, h.2.1⟩
  · exact (claim_C3 [⟨("a").data, 5, 5, [2]⟩]).2.1 (by intro t ht; simp at ht; simp [ht])
  · exact (claim_C3 []).2.2 [2] ⟨2, by simp, by decide⟩

/-! ### Sequence reconciliation (`update_sequences`, lines 527-594)

The PostgreSQL side is modelled by the open connection state: the sequences of
the public schema with their last values, plus the aborted-transaction flag.
`migrate_all` runs with `autocommit = False` (line 808) and `update_sequences`
never commits or rolls back, so statement failures follow PostgreSQL
transaction semantics: `setval` on a missing sequence raises UndefinedTable
and puts the open transaction into the aborted state, and on an aborted
transaction every further statement — later candidate `setval`s and the
catalog probe alike — raises InFailedSqlTransaction until some rollback.
A successful `setval(name, m, true)` sets the last value to `m`, so `nextval`
would return `m + 1`. -/

structure PgSeqDb where
  seqs : List (List Char × Int)
  aborted : Bool
  deriving DecidableEq, Repr

def seqNames (db : PgSeqDb) : List (List Char) := db.seqs.map Prod.fst

/-- The per-pair update performed by a successful `setval`. -/
def setSeqVal (name : List Char) (m : Int) (p : List Char × Int) : List Char × Int :=
  if p.1 = name then (p.1, m) else p

/-- `SELECT setval(name, m, true)` (lines 564-567) under `autocommit = False`:
    on an aborted transaction the statement raises (InFailedSqlTransaction)
    and changes nothing; a missing sequence raises (UndefinedTable) and aborts
    the open transaction; otherwise the sequence last value becomes `m`.
    Returns whether the statement succeeded and the resulting connection
    state. -/
def setval (db : PgSeqDb) (name : List Char) (m : Int) : Bool × PgSeqDb :=
  if db.aborted then (false, db)
  else if (seqNames db).contains name then
    (true, ⟨db.seqs.map (setSeqVal name m), false⟩)
  else (false, ⟨db.seqs, true⟩)

/-- The value `nextval` would return for a sequence: its stored last value
    plus one. -/
def nextValue (db : PgSeqDb) (name : List Char) : Option Int :=
  (db.seqs.lookup name).map (fun v => v + 1)

/-- The ordered candidate sequence names of lines 553-558: the four case
    permutations of `<table>_<column>_seq`. -/
def candidate_seq_names (tableName colName : List Char) : List (List Char) :=
  [pyLower tableName ++ '_' :: pyLower colName ++ ("_seq").data,
   tableName ++ '_' :: colName ++ ("_seq").data,
   pyLower tableName ++ '_' :: colName ++ ("_seq").data,
   tableName ++ '_' :: pyLower colName ++ ("_seq").data]

/-- The loop of lines 560-572: try `setval` on each candidate in order,
    breaking at the first success; each failure is caught and the loop
    continues on the (possibly now aborted) connection. -/
def try_candidates (m : Int) : PgSeqDb → List (List Char) → PgSeqDb × Option (List Char)
  | db, [] => (db, none)
  | db, n :: ns =>
      let r := setval db n m
      if r.1 then (r.2, some n) else try_candidates m r.2 ns

/-- The suffix of `hay` after the first occurrence of `needle`, if any. -/
def afterSub : List Char → List Char → Option (List Char)
  | hay, needle =>
    if startsWithL hay needle then some (hay.drop needle.length)
    else
      match hay with
      | [] => none
      | _ :: t => afterSub t needle

/-- SQL `LIKE '%tl%cl%'`: the name contains `tl` and, after it, `cl`. -/
def likeTC (tl cl name : List Char) : Bool :=
  match afterSub name tl with
  | some rest => (afterSub rest cl).isSome
  | none => false

/-- The row the catalog query of lines 578-583 would return on a healthy
    transaction: the first public-schema sequence whose name matches
    `LIKE '%<table>%<column>%'` (lowercased components). -/
def find_catalog_seq (db : PgSeqDb) (tl cl : List Char) : Option (List Char) :=
  (seqNames db).find? (fun n => likeTC tl cl n)

/-- Embedding of the per-column body of `update_sequences` (lines 537-594) for
    an auto-increment column whose target maximum is `maxVal`: try the four
    candidate names in order; if none succeeded, log the warning of line 575
    and run the catalog probe of lines 577-592.  On an aborted transaction
    (any candidate `setval` failed on a healthy one) the probe itself raises,
    the except of line 593 catches it, and the error-level entry of line 594
    is recorded; the function returns in every case.  Returns the new
    connection state and the log-entry levels emitted. -/
def update_sequences_column (db : PgSeqDb) (tableName colName : List Char)
    (maxVal : Option Int) : PgSeqDb × List LogLevel :=
  match maxVal with
  | none => (db, [])
  | some m =>
      let r := try_candidates m db (candidate_seq_names tableName colName)
      match r.2 with
      | some _ => (r.1, [LogLevel.info])
      | none =>
          if r.1.aborted then (r.1, [LogLevel.warning, LogLevel.error])
          else
            match find_catalog_seq r.1 (pyLower tableName) (pyLower colName) with
            | some n =>
                let s := setval r.1 n m
                if s.1 then (s.2, [LogLevel.warning, LogLevel.info])
                else (s.2, [LogLevel.warning, LogLevel.error])
            | none => (r.1, [LogLevel.warning])

theorem setSeqVal_of_eq {n : List Char} {m : Int} {p : List Char × Int}
    (hp : p.1 = n) : setSeqVal n m p = (p.1, m) := by
  unfold setSeqVal
  rw [if_pos hp]

theorem setSeqVal_of_ne {n : List Char} {m : Int} {p : List Char × Int}
    (hp : ¬ p.1 = n) : setSeqVal n m p = p := by
  unfold setSeqVal
  rw [if_neg hp]

theorem lookup_map_setval (l : List (List Char × Int)) (n : List Char) (m : Int)
    (hmem : n ∈ l.map Prod.fst) :
    List.lookup n (l.map (setSeqVal n m)) = some m := by
  induction l with
  | nil => simp at hmem
  | cons p ps ih =>
    rw [List.map_cons] at hmem
    rw [List.map_cons]
    by_cases hp : p.1 = n
    · rw [setSeqVal_of_eq hp]
      have hb : (n == p.1) = true := by simp [hp]
      simp [List.lookup, hb]
    · have hmem2 : n ∈ ps.map Prod.fst := by
        rcases List.mem_cons.mp hmem with h1 | h1
        · exact absurd h1.symm hp
        · exact h1
      rw [setSeqVal_of_ne hp]
      have hne : (n == p.1) = false := by
        rw [beq_eq_false_iff_ne]
        intro he
        exact hp he.symm
      simp [List.lookup, hne, ih hmem2]

/-- On a healthy transaction, `setval` of an existing sequence succeeds and
    leaves the transaction healthy. -/
theorem setval_mem {db : PgSeqDb} {n : List Char} {m : Int}
    (hclean : db.aborted = false) (hmem : n ∈ seqNames db) :
    setval db n m = (true, ⟨db.seqs.map (setSeqVal n m), false⟩) := by
  unfold setval
  rw [hclean]
  have hc : (seqNames db).contains n = true := by
    simpa [List.elem_iff] using hmem
  rw [if_neg (by simp), if_pos hc]

/-- On a healthy transaction, `setval` of a missing sequence fails and aborts
    the transaction. -/
theorem setval_not_mem {db : PgSeqDb} {n : List Char} {m : Int}
    (hclean : db.aborted = false) (hmem : n ∉ seqNames db) :
    setval db n m = (false, ⟨db.seqs, true⟩) := by
  unfold setval
  rw [hclean]
  have hc : (seqNames db).contains n = false := by
    rcases h : (seqNames db).contains n with _ | _
    · rfl
    · exact absurd (by simpa [List.elem_iff] using h) hmem
  rw [if_neg (by simp), hc]
  simp

/-- On an aborted transaction every statement raises: no candidate can ever
    succeed and the connection state is unchanged. -/
theorem try_candidates_aborted (m : Int) (ns : List (List Char)) (db : PgSeqDb)
    (h : db.aborted = true) : try_candidates m db ns = (db, none) := by
  induction ns with
  | nil => rfl
  | cons n ns ih =>
    have hs : setval db n m = (false, db) := by
      unfold setval
      rw [h]
      simp
    simp only [try_candidates, hs]
    exact ih

/-- C7: for an auto-increment column with non-null target maximum M, reached
    with the open transaction healthy, the reconciler tries the ordered
    case-permutation variants and then the catalog pattern lookup.  When the
    first variant names an existing sequence its `setval` succeeds and the
    sequence's next value becomes M+1 (one info entry).  Otherwise that first
    failure aborts the open transaction (`autocommit` is off and nothing rolls
    back), so the remaining variants and the catalog probe all raise; the
    except of line 593 catches the probe's failure and the non-fatal
    error-level entry of line 594 is recorded, the function returning without
    raising. -/
theorem claim_C7 (db : PgSeqDb) (t c : List Char) (m : Int)
    (hclean : db.aborted = false) :
    ((pyLower t ++ '_' :: pyLower c ++ ("_seq").data) ∈ seqNames db →
       update_sequences_column db t c (some m) =
         (⟨db.seqs.map (setSeqVal (pyLower t ++ '_' :: pyLower c ++ ("_seq").data) m),
            false⟩, [LogLevel.info]) ∧
       nextValue
         ⟨db.seqs.map (setSeqVal (pyLower t ++ '_' :: pyLower c ++ ("_seq").data) m), false⟩
         (pyLower t ++ '_' :: pyLower c ++ ("_seq").data) = some (m + 1)) ∧
    ((pyLower t ++ '_' :: pyLower c ++ ("_seq").data) ∉ seqNames db →
       update_sequences_column db t c (some m) =
         (⟨db.seqs, true⟩, [LogLevel.warning, LogLevel.error]) ∧
       LogLevel.error ∈ (update_sequences_column db t c (some m)).2) := by
  constructor
  · intro hmem
    have hs := setval_mem (m := m) hclean hmem
    have e1 : ∀ l, try_candidates m db
        ((pyLower t ++ '_' :: pyLower c ++ ("_seq").data) :: l) =
        ((⟨db.seqs.map (setSeqVal (pyLower t ++ '_' :: pyLower c ++ ("_seq").data) m),
            false⟩ : PgSeqDb),
         some (pyLower t ++ '_' :: pyLower c ++ ("_seq").data)) := by
      intro l
      simp only [try_candidates, hs]
      simp
    have htr : try_candidates m db (candidate_seq_names t c) =
        ((⟨db.seqs.map (setSeqVal (pyLower t ++ '_' :: pyLower c ++ ("_seq").data) m),
            false⟩ : PgSeqDb),
         some (pyLower t ++ '_' :: pyLower c ++ ("_seq").data)) := by
      rw [candidate_seq_names, e1]
    constructor
    · simp only [update_sequences_column, htr]
    · have hmem2 : (pyLower t ++ '_' :: pyLower c ++ ("_seq").data) ∈
          db.seqs.map Prod.fst := hmem
      show (List.lookup (pyLower t ++ '_' :: pyLower c ++ ("_seq").data)
          (db.seqs.map (setSeqVal (pyLower t ++ '_' :: pyLower c ++ ("_seq").data) m))).map
            (fun v => v + 1) = some (m + 1)
      rw [lookup_map_setval db.seqs _ m hmem2]
      rfl
  · intro hmem
    have hs := setval_not_mem (m := m) hclean hmem
    have e1 : ∀ l, try_candidates m db
        ((pyLower t ++ '_' :: pyLower c ++ ("_seq").data) :: l) =
        try_candidates m (⟨db.seqs, true⟩ : PgSeqDb) l := by
      intro l
      simp only [try_candidates, hs]
      simp
    have htr : try_candidates m db (candidate_seq_names t c) =
        ((⟨db.seqs, true⟩ : PgSeqDb), none) := by
      rw [candidate_seq_names, e1]
      exact try_candidates_aborted m _ _ rfl
    have hupd : update_sequences_column db t c (some m) =
        ((⟨db.seqs, true⟩ : PgSeqDb), [LogLevel.warning, LogLevel.error]) := by
      simp only [update_sequences_column, htr]
      simp
    refine ⟨hupd, ?_⟩
    rw [hupd]
    simp

/-- C7 witness: `claim_C7` on concrete stores — with `users_id_seq` holding 0
    and max id 3, the first candidate succeeds and the next value becomes 4;
    with an empty catalog the failed candidates abort the transaction and the
    run logs the warning plus the line-594 error-level entry. -/
theorem claim_C7_witness :
    (update_sequences_column ⟨[(("users_id_seq").data, 0)], false⟩
        ("Users").data ("Id").data (some 3) =
      (⟨[(("users_id_seq").data, 3)], false⟩, [LogLevel.info])) ∧
    (nextValue (update_sequences_column ⟨[(("users_id_seq").data, 0)], false⟩
        ("Users").data ("Id").data (some 3)).1 (("users_id_seq").data) = some 4) ∧
    (update_sequences_column ⟨[], false⟩ ("users").data ("id").data (some 3) =
      (⟨[], true⟩, [LogLevel.warning, LogLevel.error])) := by
  have h := claim_C7 ⟨[(("users_id_seq").data, 0)], false⟩ ("Users").data ("Id").data 3 rfl
  have h1 := h.1 (by decide)
  refine ⟨?_, ?_, ?_⟩
  · rw [h1.1]
    decide
  · rw [h1.1]
    decide
  · exact ((claim_C7 ⟨[], false⟩ ("users").data ("id").data 3 rfl).2 (by decide)).1

/-! ### Dependency resolution (`get_table_dependencies`, lines 301-364)

The SQL of lines 307-321 supplies the (child, parent) FK pairs of the schema;
`SHOW TABLES` supplies the table list.  The two Python dictionaries `graph`
and `in_degree` (keys: all tables) are modelled as total functions; the
theorems' hypotheses record the provenance facts that make the dictionary
accesses safe — distinct table names and edge children drawn from the table
list (both guaranteed by the SQL queries of lines 191 and 307-321). -/

/-- The body of the loop of lines 336-341: one dependency row updates the
    adjacency and in-degree maps, unless its parent is not a graph key or it
    is a self-reference (line 339). -/
def graphStep (tables : List (List Char))
    (gd : (List Char → List (List Char)) × (List Char → Int))
    (cp : List Char × List Char) :
    (List Char → List (List Char)) × (List Char → Int) :=
  if cp.2 ∈ tables ∧ cp.1 ≠ cp.2 then
    (fun t => if t = cp.2 then gd.1 t ++ [cp.1] else gd.1 t,
     fun t => if t = cp.1 then gd.2 t + 1 else gd.2 t)
  else gd

/-- Lines 326-341: build the parent→children adjacency lists and the in-degree
    map by a pass over the dependency rows. -/
def buildGraph (tables : List (List Char)) (deps : List (List Char × List Char)) :
    (List Char → List (List Char)) × (List Char → Int) :=
  deps.foldl (graphStep tables) (fun _ => [], fun _ => 0)

/-- The inner for loop of lines 353-356: decrement the in-degree of each child
    of the popped table, appending to the queue any child reaching zero. -/
def processChildren : List (List Char) → (List Char → Int) → List (List Char) →
    (List Char → Int) × List (List Char)
  | [], indeg, queue => (indeg, queue)
  | c :: cs, indeg, queue =>
      let d := indeg c - 1
      processChildren cs (fun t => if t = c then d else indeg t)
        (if d = 0 then queue ++ [c] else queue)

/-- The while loop of lines 348-356 (`queue.pop(0)` / `append`: FIFO).  The
    fuel argument only bounds the iterations; `kahn_fuel_irrelevant` below
    shows the bound passed by `kahnOrder` is never reached, so this equals the
    unbounded Python loop. -/
def kahnLoop (g : List Char → List (List Char)) :
    Nat → List (List Char) → (List Char → Int) → List (List Char) → List (List Char)
  | 0, _, _, ordered => ordered
  | _ + 1, [], _, ordered => ordered
  | fuel + 1, current :: queue, indeg, ordered =>
      let s := processChildren (g current) indeg queue
      kahnLoop g fuel s.2 s.1 (ordered ++ [current])

/-- Lines 344-356: the zero-in-degree tables seed the queue in listing order;
    the result is `ordered_tables` when the while loop exits. -/
def kahnOrder (tables : List (List Char)) (deps : List (List Char × List Char)) :
    List (List Char) :=
  let gd := buildGraph tables deps
  kahnLoop gd.1 (tables.length + deps.length)
    (tables.filter (fun t => gd.2 t = 0)) gd.2 []

/-- `get_table_dependencies` (lines 301-364): the Kahn order; when the loop
    stopped short of all tables (a cycle), the remaining tables are appended
    in their original listing order (lines 359-362). -/
def get_table_dependencies (tables : List (List Char))
    (deps : List (List Char × List Char)) : List (List Char) :=
  let ordered := kahnOrder tables deps
  if ordered.length < tables.length then
    ordered ++ tables.filter (fun t => decide (t ∉ ordered))
  else ordered

/-- C8: self-referencing FK edges are excluded from graph construction — the
    graph built from the dependency rows equals the graph built from the rows
    with all self-references removed (so neither an adjacency list nor an
    in-degree is ever affected by a `t → t` edge), and no table ever appears
    among its own children. -/
theorem graphStep_self {tables : List (List Char)}
    {gd : (List Char → List (List Char)) × (List Char → Int)}
    {cp : List Char × List Char} (h : cp.1 = cp.2) : graphStep tables gd cp = gd := by
  unfold graphStep
  rw [if_neg]
  exact fun hc => hc.2 h

theorem graphStep_no_self_child {tables : List (List Char)}
    {gd : (List Char → List (List Char)) × (List Char → Int)}
    {cp : List Char × List Char} (hinit : ∀ u, u ∉ gd.1 u) :
    ∀ u, u ∉ (graphStep tables gd cp).1 u := by
  intro u
  unfold graphStep
  by_cases hg : cp.2 ∈ tables ∧ cp.1 ≠ cp.2
  · rw [if_pos hg]
    by_cases hv : u = cp.2
    · simp only [hv, if_pos rfl]
      intro hmem
      rcases List.mem_append.mp hmem with h1 | h1
      · exact hinit cp.2 (hv ▸ h1)
      · exact hg.2 ((by simpa using h1 : cp.2 = cp.1)).symm
    · simp only [if_neg hv]
      exact hinit u
  · rw [if_neg hg]
    exact hinit u

theorem claim_C8 (tables : List (List Char)) (deps : List (List Char × List Char)) :
    buildGraph tables deps =
      buildGraph tables (deps.filter (fun cp => decide (cp.1 ≠ cp.2))) ∧
    (∀ t, t ∉ (buildGraph tables deps).1 t) := by
  constructor
  · unfold buildGraph
    have main : ∀ (deps' : List (List Char × List Char))
        (init : (List Char → List (List Char)) × (List Char → Int)),
        deps'.foldl (graphStep tables) init =
          (deps'.filter (fun cp => decide (cp.1 ≠ cp.2))).foldl (graphStep tables) init := by
      intro deps'
      induction deps' with
      | nil => intro init; rfl
      | cons cp deps ih =>
        intro init
        rw [List.filter_cons]
        by_cases hself : cp.1 = cp.2
        · have hd : (decide (cp.1 ≠ cp.2)) = false := by simp [hself]
          simp only [hd, Bool.false_eq_true, if_false, List.foldl_cons, graphStep_self hself]
          exact ih init
        · have hd : (decide (cp.1 ≠ cp.2)) = true := by simp [hself]
          simp only [hd, if_true, List.foldl_cons]
          exact ih _
    exact main deps _
  · intro t
    unfold buildGraph
    have main : ∀ (deps' : List (List Char × List Char))
        (init : (List Char → List (List Char)) × (List Char → Int)),
        (∀ u, u ∉ init.1 u) → ∀ u, u ∉ (deps'.foldl (graphStep tables) init).1 u := by
      intro deps'
      induction deps' with
      | nil => intro init hinit u; exact hinit u
      | cons cp deps ih =>
        intro init hinit u
        rw [List.foldl_cons]
        exact ih _ (graphStep_no_self_child hinit) u
    refine main deps _ ?_ t
    intro u
    exact List.not_mem_nil u

/-- C8 witness: `claim_C8` on a one-table schema with a self-referencing FK —
    the graph equals the graph built without the self-edge, and the table is
    not among its own children. -/
theorem claim_C8_witness :
    buildGraph [("emp").data] [(("emp").data, ("emp").data)] =
      buildGraph [("emp").data]
        ([(("emp").data, ("emp").data)].filter (fun cp => decide (cp.1 ≠ cp.2))) ∧
    ("emp").data ∉ (buildGraph [("emp").data] [(("emp").data, ("emp").data)]).1 (("emp").data) := by
  exact ⟨(claim_C8 [("emp").data] [(("emp").data, ("emp").data)]).1,
    (claim_C8 [("emp").data] [(("emp").data, ("emp").data)]).2 (("emp").data)⟩

/-! ### Characterization of the built graph -/

/-- The effective parents of `c`: parents of the dependency rows that
    contribute an edge into `c` (parent among the tables, not a
    self-reference), with multiplicity, in row order. -/
def effParents (tables : List (List Char)) (deps : List (List Char × List Char))
    (c : List Char) : List (List Char) :=
  (deps.filter (fun cp => decide (cp.1 = c ∧ cp.2 ∈ tables ∧ cp.1 ≠ cp.2))).map Prod.snd

/-- The effective children of `p`. -/
def effChildren (tables : List (List Char)) (deps : List (List Char × List Char))
    (p : List Char) : List (List Char) :=
  (deps.filter (fun cp => decide (cp.2 = p ∧ cp.2 ∈ tables ∧ cp.1 ≠ cp.2))).map Prod.fst

theorem buildGraph_fst (tables : List (List Char)) (deps : List (List Char × List Char))
    (p : List Char) : (buildGraph tables deps).1 p = effChildren tables deps p := by
  unfold buildGraph
  suffices main : ∀ (init : (List Char → List (List Char)) × (List Char → Int)),
      (deps.foldl (graphStep tables) init).1 p = init.1 p ++ effChildren tables deps p by
    simpa using main (fun _ => [], fun _ => 0)
  induction deps with
  | nil => intro init; simp [effChildren]
  | cons cp deps ih =>
    intro init
    rw [List.foldl_cons, ih]
    unfold effChildren
    rw [List.filter_cons]
    by_cases hg : cp.2 ∈ tables ∧ cp.1 ≠ cp.2
    · by_cases hp : p = cp.2
      · have hd : decide (cp.2 = p ∧ cp.2 ∈ tables ∧ cp.1 ≠ cp.2) = true := by
          rw [decide_eq_true_eq]
          exact ⟨hp.symm, hg.1, hg.2⟩
        rw [hd]
        simp only [if_true, List.map_cons]
        unfold graphStep
        rw [if_pos hg]
        simp only [if_pos hp]
        rw [List.append_assoc]
        rfl
      · have hd : decide (cp.2 = p ∧ cp.2 ∈ tables ∧ cp.1 ≠ cp.2) = false := by
          simp only [decide_eq_false_iff_not]
          exact fun h => hp h.1.symm
        rw [hd]
        simp only [Bool.false_eq_true, if_false]
        unfold graphStep
        rw [if_pos hg]
        simp only [if_neg hp]
    · have hd : decide (cp.2 = p ∧ cp.2 ∈ tables ∧ cp.1 ≠ cp.2) = false := by
        simp only [decide_eq_false_iff_not]
        exact fun h => hg ⟨h.2.1, h.2.2⟩
      rw [hd]
      simp only [Bool.false_eq_true, if_false]
      unfold graphStep
      rw [if_neg hg]

theorem buildGraph_snd (tables : List (List Char)) (deps : List (List Char × List Char))
    (c : List Char) :
    (buildGraph tables deps).2 c = ((effParents tables deps c).length : Int) := by
  unfold buildGraph
  suffices main : ∀ (init : (List Char → List (List Char)) × (List Char → Int)),
      (deps.foldl (graphStep tables) init).2 c =
        init.2 c + ((effParents tables deps c).length : Int) by
    simpa using main (fun _ => [], fun _ => 0)
  induction deps with
  | nil => intro init; simp [effParents]
  | cons cp deps ih =>
    intro init
    rw [List.foldl_cons, ih]
    unfold effParents
    rw [List.filter_cons]
    by_cases hg : cp.2 ∈ tables ∧ cp.1 ≠ cp.2
    · by_cases hc : cp.1 = c
      · have hd : decide (cp.1 = c ∧ cp.2 ∈ tables ∧ cp.1 ≠ cp.2) = true := by
          rw [decide_eq_true_eq]
          exact ⟨hc, hg.1, hg.2⟩
        rw [hd]
        simp only [if_true, List.map_cons, List.length_cons]
        unfold graphStep
        rw [if_pos hg]
        simp only [hc, if_pos rfl]
        push_cast
        ring
      · have hd : decide (cp.1 = c ∧ cp.2 ∈ tables ∧ cp.1 ≠ cp.2) = false := by
          simp only [decide_eq_false_iff_not]
          exact fun h => hc h.1
        rw [hd]
        simp only [Bool.false_eq_true, if_false]
        unfold graphStep
        rw [if_pos hg]
        have hcc : ¬ c = cp.1 := fun h => hc h.symm
        simp only [if_neg hcc]
    · have hd : decide (cp.1 = c ∧ cp.2 ∈ tables ∧ cp.1 ≠ cp.2) = false := by
        simp only [decide_eq_false_iff_not]
        exact fun h => hg ⟨h.2.1, h.2.2⟩
      rw [hd]
      simp only [Bool.false_eq_true, if_false]
      unfold graphStep
      rw [if_neg hg]

/-- The multiplicity of `c` among the children of `p` equals the multiplicity
    of `p` among the parents of `c`: both count the effective `(c, p)` rows. -/
theorem eff_count_link (tables : List (List Char)) (deps : List (List Char × List Char))
    (p c : List Char) :
    (effChildren tables deps p).count c = (effParents tables deps c).count p := by
  induction deps with
  | nil => rfl
  | cons cp deps ih =>
    unfold effChildren effParents at *
    simp only [List.filter_cons]
    by_cases hT : cp.2 ∈ tables
    · by_cases hS : cp.1 = cp.2
      · have hd1 : decide (cp.2 = p ∧ cp.2 ∈ tables ∧ cp.1 ≠ cp.2) = false := by
          rw [decide_eq_false_iff_not]; exact fun h => h.2.2 hS
        have hd2 : decide (cp.1 = c ∧ cp.2 ∈ tables ∧ cp.1 ≠ cp.2) = false := by
          rw [decide_eq_false_iff_not]; exact fun h => h.2.2 hS
        rw [hd1, hd2, if_neg (by simp), if_neg (by simp)]
        exact ih
      · by_cases hB : cp.2 = p
        · have hd1 : decide (cp.2 = p ∧ cp.2 ∈ tables ∧ cp.1 ≠ cp.2) = true :=
            decide_eq_true ⟨hB, hT, hS⟩
          by_cases hA : cp.1 = c
          · have hd2 : decide (cp.1 = c ∧ cp.2 ∈ tables ∧ cp.1 ≠ cp.2) = true :=
              decide_eq_true ⟨hA, hT, hS⟩
            have e1 : (cp.1 == c) = true := by simp [hA]
            have e2 : (cp.2 == p) = true := by simp [hB]
            rw [hd1, hd2, if_pos rfl, if_pos rfl, List.map_cons, List.map_cons,
              List.count_cons, List.count_cons, ih, e1, e2]
          · have hd2 : decide (cp.1 = c ∧ cp.2 ∈ tables ∧ cp.1 ≠ cp.2) = false := by
              rw [decide_eq_false_iff_not]; exact fun h => hA h.1
            have e1 : (cp.1 == c) = false := by
              rw [beq_eq_false_iff_ne]; exact hA
            rw [hd1, hd2, if_pos rfl, if_neg (by simp), List.map_cons,
              List.count_cons, ih, e1]
            simp
        · have hd1 : decide (cp.2 = p ∧ cp.2 ∈ tables ∧ cp.1 ≠ cp.2) = false := by
            rw [decide_eq_false_iff_not]; exact fun h => hB h.1
          by_cases hA : cp.1 = c
          · have hd2 : decide (cp.1 = c ∧ cp.2 ∈ tables ∧ cp.1 ≠ cp.2) = true :=
              decide_eq_true ⟨hA, hT, hS⟩
            have e2 : (cp.2 == p) = false := by
              rw [beq_eq_false_iff_ne]; exact hB
            rw [hd1, hd2, if_neg (by simp), if_pos rfl, List.map_cons,
              List.count_cons, ih, e2]
            simp
          · have hd2 : decide (cp.1 = c ∧ cp.2 ∈ tables ∧ cp.1 ≠ cp.2) = false := by
              rw [decide_eq_false_iff_not]; exact fun h => hA h.1
            rw [hd1, hd2, if_neg (by simp), if_neg (by simp)]
            exact ih
    · have hd1 : decide (cp.2 = p ∧ cp.2 ∈ tables ∧ cp.1 ≠ cp.2) = false := by
        rw [decide_eq_false_iff_not]; exact fun h => hT h.2.1
      have hd2 : decide (cp.1 = c ∧ cp.2 ∈ tables ∧ cp.1 ≠ cp.2) = false := by
        rw [decide_eq_false_iff_not]; exact fun h => hT h.2.1
      rw [hd1, hd2, if_neg (by simp), if_neg (by simp)]
      exact ih

theorem countP_not_mem_nil (l : List (List Char)) :
    l.countP (fun p => decide (p ∉ ([] : List (List Char)))) = l.length := by
  rw [List.countP_eq_length]
  intro a _
  simp

/-- Splitting the "unprocessed parents" count when `current` moves from the
    queue into `ordered`. -/
theorem countP_snoc_split (l ordered : List (List Char)) (current : List Char)
    (hcur : current ∉ ordered) :
    l.countP (fun p => decide (p ∉ ordered)) =
      l.countP (fun p => decide (p ∉ ordered ++ [current])) + l.count current := by
  induction l with
  | nil => rfl
  | cons a l ih =>
    simp only [List.countP_cons, List.count_cons]
    by_cases ha : a = current
    · subst ha
      have h1 : (decide (a ∉ ordered)) = true := by simp [hcur]
      have h2 : (decide (a ∉ ordered ++ [a])) = false := by simp
      have h3 : (a == a) = true := by simp
      rw [h1, h2, h3, ih]
      simp only [if_pos rfl, if_neg (by simp : ¬ false = true)]
      omega
    · have hiff : (a ∈ ordered ++ [current]) ↔ a ∈ ordered := by simp [ha]
      have h3 : (a == current) = false := by
        rw [beq_eq_false_iff_ne]
        exact ha
      by_cases hmem : a ∈ ordered
      · have h1 : (decide (a ∉ ordered)) = false := by simp [hmem]
        have h2 : (decide (a ∉ ordered ++ [current])) = false := by simp [hiff, hmem]
        rw [h1, h2, h3, ih]
        simp only [if_neg (by simp : ¬ false = true)]
        omega
      · have h1 : (decide (a ∉ ordered)) = true := by simp [hmem]
        have h2 : (decide (a ∉ ordered ++ [current])) = true := by simp [hiff, hmem]
        rw [h1, h2, h3, ih]
        simp only [if_pos rfl, if_neg (by simp : ¬ false = true)]
        omega

theorem countP_zero_parents {l ordered : List (List Char)}
    (h : l.countP (fun p => decide (p ∉ ordered)) = 0) : ∀ p ∈ l, p ∈ ordered := by
  rw [List.countP_eq_zero] at h
  intro p hp
  simpa using h p hp

theorem parents_countP_zero {l ordered : List (List Char)}
    (h : ∀ p ∈ l, p ∈ ordered) : l.countP (fun p => decide (p ∉ ordered)) = 0 := by
  rw [List.countP_eq_zero]
  intro p hp
  simpa using h p hp

/-! ### The ordering predicate -/

/-- `p` occurs strictly before an occurrence of `c` in `l`. -/
def Precedes {α : Type} (l : List α) (p c : α) : Prop :=
  ∃ l1 l2 l3, l = l1 ++ p :: l2 ++ c :: l3

theorem Precedes.append_right {α : Type} {l : List α} {p c : α}
    (h : Precedes l p c) (r : List α) : Precedes (l ++ r) p c := by
  obtain ⟨l1, l2, l3, rfl⟩ := h
  exact ⟨l1, l2, l3 ++ r, by simp⟩

theorem precedes_snoc {α : Type} {l : List α} {p c : α} (hp : p ∈ l) :
    Precedes (l ++ [c]) p c := by
  obtain ⟨s, t, rfl⟩ := List.append_of_mem hp
  exact ⟨s, t, [], by simp⟩

/-! ### The Kahn loop invariant -/

theorem nodup_snoc {α : Type} {l : List α} {a : α} (h : l.Nodup) (ha : a ∉ l) :
    (l ++ [a]).Nodup := by
  rw [List.nodup_append]
  refine ⟨h, List.nodup_singleton a, ?_⟩
  intro x hx hx1
  rw [List.mem_singleton] at hx1
  exact ha (hx1 ▸ hx)

theorem count_cons_zero {α : Type} [BEq α] {l : List α} {a b : α}
    (h : (b :: l).count a = 0) : l.count a = 0 := by
  rw [List.count_cons] at h
  omega

/-- The invariant of the while-loop state (queue, in-degree map, processed
    list): processed-plus-queued tables are distinct and drawn from the table
    list, each in-degree counts the not-yet-processed effective parents, every
    processed or queued table has all its parents processed, and parents
    precede children inside the processed list. -/
def KahnInv (tables : List (List Char)) (deps : List (List Char × List Char))
    (queue : List (List Char)) (indeg : List Char → Int)
    (ordered : List (List Char)) : Prop :=
  (ordered ++ queue).Nodup ∧
  (∀ x ∈ ordered ++ queue, x ∈ tables) ∧
  (∀ c, indeg c =
    ((effParents tables deps c).countP (fun p => decide (p ∉ ordered)) : Int)) ∧
  (∀ x ∈ ordered ++ queue, ∀ p ∈ effParents tables deps x, p ∈ ordered) ∧
  (∀ c ∈ ordered, ∀ p ∈ effParents tables deps c, Precedes ordered p c)

/-- The invariant across the inner child-processing fold, stated against the
    already-extended processed list: the decrements for the remaining
    children `cs` are still pending in the in-degree map. -/
def ChildInv (tables : List (List Char)) (deps : List (List Char × List Char))
    (ordered cs queue : List (List Char)) (indeg : List Char → Int) : Prop :=
  (ordered ++ queue).Nodup ∧
  (∀ x ∈ ordered ++ queue, x ∈ tables) ∧
  (∀ x ∈ cs, x ∈ tables) ∧
  (∀ c, indeg c =
    ((effParents tables deps c).countP (fun p => decide (p ∉ ordered)) : Int) + cs.count c) ∧
  (∀ x ∈ ordered ++ queue,
    (∀ p ∈ effParents tables deps x, p ∈ ordered) ∧ cs.count x = 0)

theorem processChildren_inv (tables : List (List Char)) (deps : List (List Char × List Char)) :
    ∀ (cs queue : List (List Char)) (indeg : List Char → Int)
      (ordered : List (List Char)),
      ChildInv tables deps ordered cs queue indeg →
      ChildInv tables deps ordered []
        (processChildren cs indeg queue).2 (processChildren cs indeg queue).1 := by
  intro cs
  induction cs with
  | nil => intro queue indeg ordered h; exact h
  | cons c cs ih =>
    intro queue indeg ordered h
    obtain ⟨hnd, htab, hcstab, hcount, hmem⟩ := h
    have hcnt_c : indeg c =
        ((effParents tables deps c).countP (fun p => decide (p ∉ ordered)) : Int) +
          (cs.count c + 1) := by
      rw [hcount c, List.count_cons_self]
      push_cast
      ring
    simp only [processChildren]
    by_cases hd : indeg c - 1 = 0
    · rw [if_pos hd]
      have hzero : (effParents tables deps c).countP (fun p => decide (p ∉ ordered)) = 0 ∧
          cs.count c = 0 := by
        constructor <;> omega
      have hcnotin : c ∉ ordered ++ queue := by
        intro hc
        have h0 := (hmem c hc).2
        rw [List.count_cons_self] at h0
        omega
      apply ih
      refine ⟨?_, ?_, ?_, ?_, ?_⟩
      · rw [← List.append_assoc]
        exact nodup_snoc hnd hcnotin
      · intro x hx
        rw [← List.append_assoc] at hx
        rcases List.mem_append.mp hx with h1 | h1
        · exact htab x h1
        · rw [List.mem_singleton] at h1
          exact h1 ▸ hcstab c (List.mem_cons_self c cs)
      · intro x hx
        exact hcstab x (List.mem_cons_of_mem c hx)
      · intro t
        beta_reduce
        by_cases ht : t = c
        · subst ht
          rw [if_pos rfl, hzero.1, hzero.2]
          omega
        · rw [if_neg ht, hcount t, List.count_cons_of_ne ht]
      · intro x hx
        rw [← List.append_assoc] at hx
        rcases List.mem_append.mp hx with h1 | h1
        · have hx0 := hmem x h1
          exact ⟨hx0.1, count_cons_zero hx0.2⟩
        · rw [List.mem_singleton] at h1
          subst h1
          exact ⟨countP_zero_parents hzero.1, hzero.2⟩
    · rw [if_neg hd]
      apply ih
      refine ⟨hnd, htab, ?_, ?_, ?_⟩
      · intro x hx
        exact hcstab x (List.mem_cons_of_mem c hx)
      · intro t
        beta_reduce
        by_cases ht : t = c
        · subst ht
          rw [if_pos rfl, hcnt_c]
          omega
        · rw [if_neg ht, hcount t, List.count_cons_of_ne ht]
      · intro x hx
        have hx0 := hmem x hx
        exact ⟨hx0.1, count_cons_zero hx0.2⟩

/-- Popping a table from the queue establishes the inner invariant against the
    extended processed list. -/
theorem kahn_pop (tables : List (List Char)) (deps : List (List Char × List Char))
    (hchild : ∀ cp ∈ deps, cp.1 ∈ tables)
    {current : List Char} {queue : List (List Char)} {indeg : List Char → Int}
    {ordered : List (List Char)}
    (h : KahnInv tables deps (current :: queue) indeg ordered) :
    ChildInv tables deps (ordered ++ [current])
      ((buildGraph tables deps).1 current) queue indeg := by
  obtain ⟨hnd, htab, hcount, hpar, hprec⟩ := h
  have hassoc : (ordered ++ [current]) ++ queue = ordered ++ current :: queue := by simp
  have hcur_notin : current ∉ ordered := by
    intro hmem
    exact List.disjoint_of_nodup_append hnd hmem (List.mem_cons_self current queue)
  refine ⟨?_, ?_, ?_, ?_, ?_⟩
  · rw [hassoc]
    exact hnd
  · intro x hx
    rw [hassoc] at hx
    exact htab x hx
  · intro x hx
    rw [buildGraph_fst] at hx
    unfold effChildren at hx
    obtain ⟨cp, hcp, rfl⟩ := List.mem_map.mp hx
    exact hchild cp (List.mem_of_mem_filter hcp)
  · intro c
    rw [hcount c,
      countP_snoc_split (effParents tables deps c) ordered current hcur_notin,
      buildGraph_fst, eff_count_link]
    push_cast
    ring
  · intro x hx
    rw [hassoc] at hx
    constructor
    · intro p hp
      exact List.mem_append_left _ (hpar x hx p hp)
    · rw [buildGraph_fst, eff_count_link]
      by_contra hne
      have hpos : 0 < (effParents tables deps x).count current := Nat.pos_of_ne_zero hne
      have hmemp : current ∈ effParents tables deps x := List.count_pos_iff.mp hpos
      exact hcur_notin (hpar x hx current hmemp)

/-- The invariant is preserved across one pop, and the processed list grows by
    the popped element. -/
theorem kahn_step (tables : List (List Char)) (deps : List (List Char × List Char))
    (hchild : ∀ cp ∈ deps, cp.1 ∈ tables)
    {current : List Char} {queue : List (List Char)} {indeg : List Char → Int}
    {ordered : List (List Char)}
    (h : KahnInv tables deps (current :: queue) indeg ordered) :
    KahnInv tables deps
      (processChildren ((buildGraph tables deps).1 current) indeg queue).2
      (processChildren ((buildGraph tables deps).1 current) indeg queue).1
      (ordered ++ [current]) := by
  have hchi := processChildren_inv tables deps _ _ _ _ (kahn_pop tables deps hchild h)
  obtain ⟨h1, h2, _, h4, h5⟩ := hchi
  refine ⟨h1, h2, ?_, fun x hx => (h5 x hx).1, ?_⟩
  · intro c
    rw [h4 c]
    simp
  · intro c hc p hp
    rcases List.mem_append.mp hc with h1c | h1c
    · exact (h.2.2.2.2 c h1c p hp).append_right [current]
    · rw [List.mem_singleton] at h1c
      subst h1c
      have hcmem : c ∈ ordered ++ c :: queue :=
        List.mem_append_right _ (List.mem_cons_self c queue)
      exact precedes_snoc (h.2.2.2.1 c hcmem p hp)

theorem kahnLoop_spec (tables : List (List Char)) (deps : List (List Char × List Char))
    (hchild : ∀ cp ∈ deps, cp.1 ∈ tables) :
    ∀ (fuel : Nat) (queue : List (List Char)) (indeg : List Char → Int)
      (ordered : List (List Char)),
      KahnInv tables deps queue indeg ordered →
      (kahnLoop (buildGraph tables deps).1 fuel queue indeg ordered).Nodup ∧
      (∀ x ∈ kahnLoop (buildGraph tables deps).1 fuel queue indeg ordered, x ∈ tables) ∧
      (∀ c ∈ kahnLoop (buildGraph tables deps).1 fuel queue indeg ordered,
        ∀ p ∈ effParents tables deps c,
          Precedes (kahnLoop (buildGraph tables deps).1 fuel queue indeg ordered) p c) := by
  intro fuel
  induction fuel with
  | zero =>
    intro queue indeg ordered h
    refine ⟨h.1.of_append_left, ?_, ?_⟩
    · intro x hx
      exact h.2.1 x (List.mem_append_left _ hx)
    · exact h.2.2.2.2
  | succ fuel ih =>
    intro queue indeg ordered h
    cases queue with
    | nil =>
      refine ⟨h.1.of_append_left, ?_, ?_⟩
      · intro x hx
        exact h.2.1 x (List.mem_append_left _ hx)
      · exact h.2.2.2.2
    | cons current queue =>
      simp only [kahnLoop]
      exact ih _ _ _ (kahn_step tables deps hchild h)

/-- The invariant holds at loop entry (lines 326-346). -/
theorem kahn_init_inv (tables : List (List Char)) (deps : List (List Char × List Char))
    (hnd : tables.Nodup) :
    KahnInv tables deps
      (tables.filter (fun t => (buildGraph tables deps).2 t = 0))
      (buildGraph tables deps).2 [] := by
  refine ⟨?_, ?_, ?_, ?_, ?_⟩
  · simpa using hnd.filter _
  · intro x hx
    rw [List.nil_append] at hx
    exact List.mem_of_mem_filter hx
  · intro c
    rw [buildGraph_snd, countP_not_mem_nil]
  · intro x hx
    rw [List.nil_append] at hx
    intro p hp
    have h0 : (buildGraph tables deps).2 x = 0 := by
      have h1 := (List.mem_filter.mp hx).2
      exact of_decide_eq_true h1
    rw [buildGraph_snd] at h0
    have hlen : (effParents tables deps x).length = 0 := by exact_mod_cast h0
    rw [List.length_eq_zero] at hlen
    rw [hlen] at hp
    exact absurd hp (List.not_mem_nil p)
  · intro c hc
    exact absurd hc (List.not_mem_nil c)

/-- With the invariant, one more unit of fuel never changes the result — at
    exhaustion the queue is provably empty. -/
theorem kahn_step_fuel (tables : List (List Char)) (deps : List (List Char × List Char))
    (hchild : ∀ cp ∈ deps, cp.1 ∈ tables) :
    ∀ (fuel : Nat) (queue : List (List Char)) (indeg : List Char → Int)
      (ordered : List (List Char)),
      KahnInv tables deps queue indeg ordered →
      tables.length ≤ fuel + ordered.length →
      kahnLoop (buildGraph tables deps).1 fuel queue indeg ordered =
        kahnLoop (buildGraph tables deps).1 (fuel + 1) queue indeg ordered := by
  intro fuel
  induction fuel with
  | zero =>
    intro queue indeg ordered h hcap
    cases queue with
    | nil => rfl
    | cons current queue =>
      exfalso
      have hsub : ordered ⊆ tables := by
        intro x hx
        exact h.2.1 x (List.mem_append_left _ hx)
      have hperm : List.Perm ordered tables :=
        (h.1.of_append_left.subperm hsub).perm_of_length_le (by simpa using hcap)
      have hcur_tab : current ∈ tables :=
        h.2.1 current (List.mem_append_right _ (List.mem_cons_self current queue))
      have hcur_ord : current ∈ ordered := hperm.mem_iff.mpr hcur_tab
      exact List.disjoint_of_nodup_append h.1 hcur_ord (List.mem_cons_self current queue)
  | succ fuel ih =>
    intro queue indeg ordered h hcap
    cases queue with
    | nil => rfl
    | cons current queue =>
      simp only [kahnLoop]
      refine ih _ _ _ (kahn_step tables deps hchild h) ?_
      rw [List.length_append, List.length_singleton]
      omega

/-- The fuel bound used by `kahnOrder` is never reached: any extra fuel gives
    the same result, so `kahnOrder` equals the unbounded Python while loop. -/
theorem kahn_fuel_irrelevant (tables : List (List Char)) (deps : List (List Char × List Char))
    (hnd : tables.Nodup) (hchild : ∀ cp ∈ deps, cp.1 ∈ tables) (k : Nat) :
    kahnLoop (buildGraph tables deps).1 (tables.length + deps.length + k)
      (tables.filter (fun t => (buildGraph tables deps).2 t = 0))
      (buildGraph tables deps).2 [] = kahnOrder tables deps := by
  induction k with
  | zero => rfl
  | succ k ih =>
    rw [← ih]
    exact (kahn_step_fuel tables deps hchild (tables.length + deps.length + k) _ _ _
      (kahn_init_inv tables deps hnd) (by simp; omega)).symm

/-- C2: on any table list and FK-edge set (tables distinct, edge children
    drawn from the tables, as the introspection queries guarantee),
    `get_table_dependencies` totally orders the tables: the result is a
    permutation of the table list (every table exactly once, never a raised
    exception — the resolver is a total function); it is the Kahn order
    followed by the cycle remainder in original listing order; and for every
    FK edge whose child was placed by Kahn's algorithm, the parent precedes
    the child in the returned order (cycle-remainder tables are exempt). -/
theorem claim_C2 (tables : List (List Char)) (deps : List (List Char × List Char))
    (hnd : tables.Nodup) (hchild : ∀ cp ∈ deps, cp.1 ∈ tables) :
    List.Perm (get_table_dependencies tables deps) tables ∧
    get_table_dependencies tables deps =
      kahnOrder tables deps ++
        tables.filter (fun t => decide (t ∉ kahnOrder tables deps)) ∧
    (∀ cp ∈ deps, cp.2 ∈ tables → cp.1 ≠ cp.2 → cp.1 ∈ kahnOrder tables deps →
      Precedes (get_table_dependencies tables deps) cp.2 cp.1) := by
  have hspec := kahnLoop_spec tables deps hchild (tables.length + deps.length)
    (tables.filter (fun t => (buildGraph tables deps).2 t = 0))
    (buildGraph tables deps).2 [] (kahn_init_inv tables deps hnd)
  have hKdef : kahnLoop (buildGraph tables deps).1 (tables.length + deps.length)
      (tables.filter (fun t => (buildGraph tables deps).2 t = 0))
      (buildGraph tables deps).2 [] = kahnOrder tables deps := rfl
  rw [hKdef] at hspec
  obtain ⟨hKnd, hKtab, hKprec⟩ := hspec
  have heq : get_table_dependencies tables deps =
      kahnOrder tables deps ++
        tables.filter (fun t => decide (t ∉ kahnOrder tables deps)) := by
    unfold get_table_dependencies
    by_cases hlt : (kahnOrder tables deps).length < tables.length
    · rw [if_pos hlt]
    · rw [if_neg hlt]
      have hperm : List.Perm (kahnOrder tables deps) tables :=
        (hKnd.subperm hKtab).perm_of_length_le (by omega)
      have hfil : tables.filter (fun t => decide (t ∉ kahnOrder tables deps)) = [] := by
        rw [List.filter_eq_nil_iff]
        intro a ha
        simp only [decide_eq_true_eq, Decidable.not_not]
        exact hperm.mem_iff.mpr ha
      rw [hfil, List.append_nil]
  refine ⟨?_, heq, ?_⟩
  · rw [heq]
    have h1 : List.Perm
        (tables.filter (fun t => decide (t ∈ kahnOrder tables deps)) ++
          tables.filter (fun t => decide (t ∉ kahnOrder tables deps)))
        tables := by
      have := List.filter_append_perm (fun t => decide (t ∈ kahnOrder tables deps)) tables
      have hcongr : tables.filter (fun t => !(decide (t ∈ kahnOrder tables deps))) =
          tables.filter (fun t => decide (t ∉ kahnOrder tables deps)) := by
        apply List.filter_congr
        intro a _
        simp
      rw [hcongr] at this
      exact this
    have h2 : List.Perm (kahnOrder tables deps)
        (tables.filter (fun t => decide (t ∈ kahnOrder tables deps))) := by
      rw [List.perm_ext_iff_of_nodup hKnd (hnd.filter _)]
      intro a
      constructor
      · intro ha
        rw [List.mem_filter]
        exact ⟨hKtab a ha, decide_eq_true ha⟩
      · intro ha
        exact of_decide_eq_true (List.mem_filter.mp ha).2
    exact (h2.append_right _).trans h1
  · intro cp hcp hpt hne hmemK
    have hp : cp.2 ∈ effParents tables deps cp.1 := by
      unfold effParents
      refine List.mem_map.mpr ⟨cp, ?_, rfl⟩
      rw [List.mem_filter]
      exact ⟨hcp, decide_eq_true ⟨rfl, hpt, hne⟩⟩
    have := hKprec cp.1 hmemK cp.2 hp
    rw [heq]
    exact this.append_right _

/-- C2 witness: `claim_C2` on a concrete two-table schema with one FK
    (`orders.customer_id → customers.id`): the resolver returns a permutation
    of the tables and `customers` precedes `orders`. -/
theorem claim_C2_witness :
    List.Perm
      (get_table_dependencies [("customers").data, ("orders").data]
        [(("orders").data, ("customers").data)])
      [("customers").data, ("orders").data] ∧
    Precedes
      (get_table_dependencies [("customers").data, ("orders").data]
        [(("orders").data, ("customers").data)])
      (("customers").data) (("orders").data) := by
  have h := claim_C2 [("customers").data, ("orders").data]
    [(("orders").data, ("customers").data)] (by decide) (by decide)
  refine ⟨h.1, ?_⟩
  exact h.2.2 ((("orders").data, ("customers").data)) (by simp)
    (by decide) (by decide) (by decide)

end Migration
